import Mathlib

/-!
# Bare-board newlib support (`gnat/newlib-bb.c`): allocator and console adapter

A shallow embedding of the C functions `_sbrk`, `__gnat_heap_init`, `_write`
and `_read`, of the stubs `isatty`, `_close`, `_fstat` and `_lseek`, and of
`__gnat_get_executable_load_address` (`gnat/adaint-xi.c`), followed by theorems
about them.

Conventions of the embedding.

* Addresses are `w`-bit machine words, natural numbers below `2 ^ w`.  In `_sbrk` the
  difference `heap_end - heap_ptr` is the word difference read as a signed
  `ptrdiff_t` (`ptr_diff`), and `heap_ptr += nbytes` is an addition modulo `2 ^ w`.
  The unsigned word arithmetic of `__gnat_heap_init` (`uintptr_t`, `size_t`) is
  modulo `2 ^ w` as well.  A request `nbytes` is an integer; the theorems hold for
  every integer, so for every `int`.
* A `char` is a `Char`, a buffer a function from indices to characters.
* A busy-wait loop takes a bound `fuel` on its polls and yields `none` when the
  bound is reached; theorems about returning calls give a bound that suffices.
* `(void *)-1`, the failure value of `_sbrk`, is `none`; a returned base is `some`.
* Global variables become fields of an explicit state that every function
  takes and returns.
-/

namespace NewlibBB

/-! ## Bump allocator -/

/-- The two globals of the allocator, as machine words: the cursor `heap_ptr` and the
ceiling `heap_end`. -/
structure Heap where
  heap_ptr : Nat
  heap_end : Nat
deriving DecidableEq, Repr

/-- Static initialisers of the plain-pointer build:
`heap_ptr = &__heap_start`, `heap_end = &__heap_end`. -/
def heap_static (heap_start heap_end : Nat) : Heap :=
  { heap_ptr := heap_start, heap_end := heap_end }

/-- Both globals are `w`-bit words. -/
def words (w : Nat) (s : Heap) : Prop :=
  s.heap_ptr < 2 ^ w ∧ s.heap_end < 2 ^ w

instance (w : Nat) (s : Heap) : Decidable (words w s) := by
  unfold words; infer_instance

/-- The expression `(ptrdiff_t)(a - b)` on `w`-bit words: the word difference
`(a - b) mod 2^w`, read as a signed number. -/
def ptr_diff (w : Nat) (a b : Nat) : Int :=
  let d : Int := ((a : Int) - (b : Int)) % 2 ^ w
  if d < 2 ^ (w - 1) then d else d - 2 ^ w

/-- The function `_sbrk (int nbytes)` on `w`-bit words: result (`none` for `(void *)-1`)
and new globals.  The comparison is signed, on the `ptrdiff_t` difference; the sum
`heap_ptr += nbytes` is a word addition, modulo `2^w`.  The result records the branch
taken: a base returned by the first branch is `some`, also when it is the all-ones
word. -/
def _sbrk (w : Nat) (s : Heap) (nbytes : Int) : Option Nat × Heap :=
  if ptr_diff w s.heap_end s.heap_ptr ≥ nbytes then
    let base := s.heap_ptr
    (some base, { s with heap_ptr := (((s.heap_ptr : Int) + nbytes) % 2 ^ w).toNat })
  else
    (none, s)

/-- Consecutive calls of `_sbrk` with the given sizes: the results in call order,
each paired with its request, and the final globals. -/
def sbrk_calls (w : Nat) : Heap → List Int → List (Int × Option Nat) × Heap
  | s, [] => ([], s)
  | s, n :: ns =>
    let r := _sbrk w s n
    let rest := sbrk_calls w r.2 ns
    ((n, r.1) :: rest.1, rest.2)

/-- The globals after each call of a sequence of `_sbrk` calls, in call order. -/
def sbrk_states (w : Nat) : Heap → List Int → List Heap
  | _, [] => []
  | s, n :: ns => (_sbrk w s n).2 :: sbrk_states w (_sbrk w s n).2 ns

/-- The regions handed out by a sequence of calls: `(base, size)` of each successful call. -/
def regions (rs : List (Int × Option Nat)) : List (Nat × Int) :=
  rs.filterMap fun r => r.2.map fun b => (b, r.1)

/-- The cursor stays inside the heap region: `heap_start <= heap_ptr <= heap_end`. -/
def heap_inv (heap_start : Nat) (s : Heap) : Prop :=
  heap_start ≤ s.heap_ptr ∧ s.heap_ptr ≤ s.heap_end

instance (heap_start : Nat) (s : Heap) : Decidable (heap_inv heap_start s) := by
  unfold heap_inv; infer_instance

/-- Every request of a sequence of `_sbrk` calls asks, at its turn, for a cursor
`heap_ptr + n` at or above the address `floor`. -/
def requests_stay_above (w : Nat) (floor : Nat) : Heap → List Int → Prop
  | _, [] => True
  | s, n :: ns =>
    (floor : Int) ≤ (s.heap_ptr : Int) + n ∧ requests_stay_above w floor (_sbrk w s n).2 ns

/-! ## Capability-bounded heap initialisation -/

/-- Modelled from the spec: a hardware capability, "a hardware-enforced access token
carrying address, bounds, and permissions".  The type comes from `cheriintrin.h`,
which is not part of the sources. -/
structure Capability where
  address : Nat
  base : Nat
  length : Nat
  perms : Nat
deriving DecidableEq, Repr

/-- Modelled from the spec: the primitive "set an address on a capability". -/
def cheri_address_set (c : Capability) (a : Nat) : Capability :=
  { c with address := a }

/-- Modelled from the spec: the primitive "set exact bounds"; the bounds start at the
capability's address and have the given length. -/
def cheri_bounds_set_exact (c : Capability) (len : Nat) : Capability :=
  { c with base := c.address, length := len }

/-- Modelled from the spec: the primitive that clears permission bits, by masking. -/
def cheri_perms_and (c : Capability) (mask : Nat) : Capability :=
  { c with perms := c.perms &&& mask }

/-- Bitwise complement of a `w`-bit word. -/
def word_not (w x : Nat) : Nat := 2 ^ w - 1 - x % 2 ^ w

/-- The function `__gnat_heap_init` of the capability build, on `w`-bit words.  The
hardware's representable-alignment mask function, the execute permission bit and the
default data capability are parameters.  Result: the new `heap_ptr` and `heap_end`. -/
def __gnat_heap_init (w : Nat) (cheri_representable_alignment_mask : Nat → Nat)
    (CHERI_PERM_EXECUTE : Nat) (ddc : Capability) (heap_start heap_end : Nat) :
    Capability × Nat :=
  let base := heap_start
  let limit := heap_end
  let length := if base ≤ limit then (limit - base) % 2 ^ w else 0
  let rrmask := cheri_representable_alignment_mask length % 2 ^ w
  let rrmask_inv := word_not w rrmask
  let base := ((base + rrmask_inv) % 2 ^ w) &&& rrmask
  let limit := limit &&& rrmask
  let length := (((limit : Int) - (base : Int)) % 2 ^ w).toNat
  let heap_end := limit
  let heap_ptr := cheri_address_set ddc base
  let heap_ptr := cheri_bounds_set_exact heap_ptr length
  let heap_ptr := cheri_perms_and heap_ptr (word_not w CHERI_PERM_EXECUTE)
  (heap_ptr, heap_end)

/-- The allocator globals of the capability build once `__gnat_heap_init` has run:
`_sbrk` compares and advances the address of the capability `heap_ptr`. -/
def heap_cheri (w : Nat) (cheri_representable_alignment_mask : Nat → Nat)
    (CHERI_PERM_EXECUTE : Nat) (ddc : Capability) (heap_start heap_end : Nat) : Heap :=
  let r := __gnat_heap_init w cheri_representable_alignment_mask CHERI_PERM_EXECUTE ddc
    heap_start heap_end
  { heap_ptr := r.1.address, heap_end := r.2 }

/-- The value of `rrmask` in `__gnat_heap_init`: the representable-alignment mask of
the guarded length, as a `w`-bit word. -/
def heap_init_mask (w : Nat) (cheri_representable_alignment_mask : Nat → Nat)
    (heap_start heap_end : Nat) : Nat :=
  cheri_representable_alignment_mask
    (if heap_start ≤ heap_end then (heap_end - heap_start) % 2 ^ w else 0) % 2 ^ w

/-- The value of `base` after the line marked "round up" in `__gnat_heap_init`. -/
def rounded_start (w : Nat) (cheri_representable_alignment_mask : Nat → Nat)
    (heap_start heap_end : Nat) : Nat :=
  ((heap_start
      + word_not w (heap_init_mask w cheri_representable_alignment_mask heap_start heap_end))
    % 2 ^ w) &&& heap_init_mask w cheri_representable_alignment_mask heap_start heap_end

/-- The value of `limit` after the line marked "round down" in `__gnat_heap_init`. -/
def rounded_end (w : Nat) (cheri_representable_alignment_mask : Nat → Nat)
    (heap_start heap_end : Nat) : Nat :=
  heap_end &&& heap_init_mask w cheri_representable_alignment_mask heap_start heap_end

/-! ## Console Text Service -/

/-- One call made to the Console Text Service, with the answer it gave. -/
inductive Call where
  | init
  | tx_ready (answer : Bool)
  | rx_ready (answer : Bool)
  | cr_lf (answer : Bool)
  | put (c : Char)
  | get (c : Char)
deriving DecidableEq, Repr

/-- Modelled from the spec: the Console Text Service (`System.Text_IO`), of which the
sources hold only the `extern` declarations: "one-time `initialize()`, level queries
`is_transmit_ready()/is_receive_ready()` (non-blocking, polled), single-character
`put(c)/get()→c`, and a configuration query `uses_crlf_for_newline()→bool`".

* `initialized` is the flag `system__text_io__initialized`;
* `cr_lf` is the answer of `system__text_io__use_cr_lf_for_new_line`;
* the transmitter answers "not ready" to the next `tx_busy` polls, and is busy for
  `tx_delay` polls after each `put`;
* `rx` holds the characters the device will deliver, in order; the receiver answers
  "not ready" to the next `rx_busy` polls and for `rx_delay` polls after each `get`,
  and for ever once `rx` is empty;
* `calls` records every call made to the service, oldest first. -/
structure Console where
  initialized : Bool
  cr_lf : Bool
  tx_busy : Nat
  tx_delay : Nat
  rx_busy : Nat
  rx_delay : Nat
  rx : List Char
  calls : List Call
deriving DecidableEq, Repr

/-- Modelled from the spec: `system__text_io__initialize`, which sets the flag. -/
def system__text_io__initialize (s : Console) : Console :=
  { s with initialized := true, calls := s.calls ++ [Call.init] }

/-- Modelled from the spec: the poll `system__text_io__is_tx_ready`. -/
def system__text_io__is_tx_ready (s : Console) : Bool × Console :=
  match s.tx_busy with
  | 0 => (true, { s with calls := s.calls ++ [Call.tx_ready true] })
  | k + 1 => (false, { s with tx_busy := k, calls := s.calls ++ [Call.tx_ready false] })

/-- Modelled from the spec: the poll `system__text_io__is_rx_ready`. -/
def system__text_io__is_rx_ready (s : Console) : Bool × Console :=
  match s.rx, s.rx_busy with
  | [], _ => (false, { s with calls := s.calls ++ [Call.rx_ready false] })
  | _ :: _, 0 => (true, { s with calls := s.calls ++ [Call.rx_ready true] })
  | _ :: _, k + 1 =>
    (false, { s with rx_busy := k, calls := s.calls ++ [Call.rx_ready false] })

/-- Modelled from the spec: the query `system__text_io__use_cr_lf_for_new_line`. -/
def system__text_io__use_cr_lf_for_new_line (s : Console) : Bool × Console :=
  (s.cr_lf, { s with calls := s.calls ++ [Call.cr_lf s.cr_lf] })

/-- Modelled from the spec: `system__text_io__put`, one device transaction. -/
def system__text_io__put (c : Char) (s : Console) : Console :=
  { s with tx_busy := s.tx_delay, calls := s.calls ++ [Call.put c] }

/-- Modelled from the spec: `system__text_io__get`, which takes the next character of
the device. -/
def system__text_io__get (s : Console) : Char × Console :=
  match s.rx with
  | [] => ('\x00', { s with calls := s.calls ++ [Call.get '\x00'] })
  | c :: rest =>
    (c, { s with rx := rest, rx_busy := s.rx_delay, calls := s.calls ++ [Call.get c] })

/-- The characters handed to `system__text_io__put` so far, oldest first. -/
def sent (s : Console) : List Char :=
  s.calls.filterMap fun e => match e with
    | Call.put c => some c
    | _ => none

/-! ## Console transport adapter -/

/-- The function `write_console`: poll until the transmitter is ready, then `put`.
`none` when the loop is still polling after `fuel` polls. -/
def write_console : Nat → Char → Console → Option Console
  | 0, _, _ => none
  | fuel + 1, c, s =>
    let r := system__text_io__is_tx_ready s
    if r.1 then some (system__text_io__put c r.2) else write_console fuel c r.2

/-- The function `read_console`: poll until the receiver is ready, then `get`.
`none` when the loop is still polling after `fuel` polls. -/
def read_console : Nat → Console → Option (Char × Console)
  | 0, _ => none
  | fuel + 1, s =>
    let r := system__text_io__is_rx_ready s
    if r.1 then some (system__text_io__get r.2) else read_console fuel r.2

/-- The `for` loop of `_write` with `k` iterations left, at index `i`. -/
def write_loop (fuel : Nat) (buf : Nat → Char) : Nat → Nat → Console → Option Console
  | 0, _, s => some s
  | k + 1, i, s =>
    let c := buf i
    let q := if c = '\n' then system__text_io__use_cr_lf_for_new_line s else (false, s)
    let s1 := if q.1 then write_console fuel '\r' q.2 else some q.2
    match s1 with
    | none => none
    | some s1 =>
      match write_console fuel c s1 with
      | none => none
      | some s2 => write_loop fuel buf k (i + 1) s2

/-- The function `_write (fd, buf, nbytes)`: the value returned and the service
afterwards.  The loop `for (i = 0; i < nbytes; i++)` runs `nbytes` times, and not at
all when `nbytes` is negative.  Each busy-wait may poll `fuel` times. -/
def _write (fuel : Nat) (s : Console) (_fd : Int) (buf : Nat → Char) (nbytes : Int) :
    Option (Int × Console) :=
  let s := if !s.initialized then system__text_io__initialize s else s
  match write_loop fuel buf nbytes.toNat 0 s with
  | none => none
  | some s => some (nbytes, s)

/-- The `for (i = 0; i < count;)` loop of `_read` with `k` iterations allowed, at
index `i`.  Result: the final `i`, the buffer and the service. -/
def read_loop (fuel : Nat) (count : Int) :
    Nat → Nat → (Nat → Char) → Console → Option (Nat × (Nat → Char) × Console)
  | 0, _, _, _ => none
  | k + 1, i, buf, s =>
    if (i : Int) < count then
      match read_console fuel s with
      | none => none
      | some (c, s1) =>
        let q := if c = '\r' then system__text_io__use_cr_lf_for_new_line s1 else (false, s1)
        if q.1 then read_loop fuel count k i buf q.2
        else
          let buf := Function.update buf i c
          let i := i + 1
          if c = '\n' then some (i, buf, q.2) else read_loop fuel count k i buf q.2
    else some (i, buf, s)

/-- The function `_read (fd, buf, count)`: the value returned, the buffer and the
service afterwards.  `fuel` bounds the polls of each busy-wait and the number of
loop iterations; `none` when that was not enough for the call to return. -/
def _read (fuel : Nat) (s : Console) (_fd : Int) (buf : Nat → Char) (count : Int) :
    Option (Nat × (Nat → Char) × Console) :=
  let s := if !s.initialized then system__text_io__initialize s else s
  read_loop fuel count fuel 0 buf s

/-- The first `n` bytes of a buffer. -/
def bytes (buf : Nat → Char) (n : Nat) : List Char :=
  (List.range n).map buf

/-- A buffer holding the given characters from index 0 on. -/
def buffer_of (cs : List Char) : Nat → Char :=
  fun i => cs.getD i '\x00'

/-- A byte string with a carriage-return put immediately before each line-feed when
`cr_lf` is set, and unchanged when it is not. -/
def with_cr (cr_lf : Bool) (cs : List Char) : List Char :=
  cs.flatMap fun c => if c = '\n' ∧ cr_lf = true then ['\r', c] else [c]

/-- The characters `_read` accepts from a device stream: all of them, minus the
carriage-returns when CR/LF translation is on. -/
def accepted (cr_lf : Bool) (rx : List Char) : List Char :=
  if cr_lf then rx.filter fun c => c ≠ '\r' else rx

/-- A byte string has no line-feed except possibly as its last character. -/
def lf_only_last (cs : List Char) : Prop :=
  '\n' ∉ cs.dropLast

instance (cs : List Char) : Decidable (lf_only_last cs) := by
  unfold lf_only_last; infer_instance

/-- The first line of a byte string, cut after `n` characters: its characters up to
and including the first line-feed, and no more than `n` of them. -/
def line_cut : Nat → List Char → List Char
  | 0, _ => []
  | _ + 1, [] => []
  | n + 1, c :: cs => if c = '\n' then [c] else c :: line_cut n cs

/-- The characters taken from the device with `system__text_io__get` so far, oldest
first. -/
def got (s : Console) : List Char :=
  s.calls.filterMap fun e => match e with
    | Call.get c => some c
    | _ => none

/-- Between two states of the service no call of `system__text_io__initialize` was made:
the trace grew by calls other than `Call.init`, and the flag and the CR/LF setting
are the same. -/
def quiet (s s' : Console) : Prop :=
  s'.initialized = s.initialized ∧ s'.cr_lf = s.cr_lf ∧
    ∃ es, s'.calls = s.calls ++ es ∧ Call.init ∉ es

/-- One call of the adapter by a byte-stream client. -/
inductive Request where
  | write (fd : Int) (buf : Nat → Char) (nbytes : Int)
  | read (fd : Int) (buf : Nat → Char) (count : Int)

/-- A finite sequence of `_write` and `_read` calls, in order: the service afterwards,
or `none` when one of the calls did not return within `fuel`. -/
def serve (fuel : Nat) : Console → List Request → Option Console
  | s, [] => some s
  | s, Request.write fd buf nbytes :: rest =>
    match _write fuel s fd buf nbytes with
    | none => none
    | some r => serve fuel r.2 rest
  | s, Request.read fd buf count :: rest =>
    match _read fuel s fd buf count with
    | none => none
    | some r => serve fuel r.2.2 rest

/-- The flag `system__text_io__initialized` at the moment of the `j`-th call of a trace
`es` that starts with the flag at `flag0`: set from the start, or by an earlier
`Call.init`. -/
def flag_before (flag0 : Bool) (es : List Call) (j : Nat) : Bool :=
  flag0 || (es.take j).contains Call.init

/-- What a `_read` that stores at most `n` characters leaves of the device stream `rx`:
the characters after the last one it takes.  A carriage-return under CR/LF
translation is taken and not stored; the call stops after storing a line-feed or
its `n`-th character. -/
def read_rest (cr_lf : Bool) : Nat → List Char → List Char
  | 0, rx => rx
  | _ + 1, [] => []
  | n + 1, c :: rx =>
    if (decide (c = '\r') && cr_lf) = true then read_rest cr_lf (n + 1) rx
    else if c = '\n' then rx else read_rest cr_lf n rx

/-- The device delivers enough for every `_read` of a sequence of calls to return: at the
turn of each `_read`, the part of the stream `rx` not yet taken holds, among the
characters it accepts, a line-feed or at least `count` characters.  A `_write` takes
nothing from the stream. -/
def live (cr_lf : Bool) : List Char → List Request → Prop
  | _, [] => True
  | rx, Request.write _ _ _ :: rest => live cr_lf rx rest
  | rx, Request.read _ _ count :: rest =>
    ('\n' ∈ accepted cr_lf rx ∨ count.toNat ≤ (accepted cr_lf rx).length) ∧
      live cr_lf (read_rest cr_lf count.toNat rx) rest

/-- A number of polls that is enough for every busy-wait the service can cause from the
state `s` on: above the ready delays of both directions and above the number of
characters still to come. -/
def fits (fuel : Nat) (s : Console) : Prop :=
  s.tx_busy < fuel ∧ s.tx_delay < fuel ∧ s.rx_busy < fuel ∧ s.rx_delay < fuel ∧
    s.rx.length < fuel

/-- Between two states of the service the CR/LF setting and the delays are the same, the
polls still to be refused have not grown beyond the delays, and the device stream has
not grown. -/
def steady (s s' : Console) : Prop :=
  s'.cr_lf = s.cr_lf ∧ s'.tx_delay = s.tx_delay ∧ s'.rx_delay = s.rx_delay ∧
    (s'.tx_busy ≤ s.tx_busy ∨ s'.tx_busy ≤ s.tx_delay) ∧
    (s'.rx_busy ≤ s.rx_busy ∨ s'.rx_busy ≤ s.rx_delay) ∧
    s'.rx.length ≤ s.rx.length

/-! ## Stubs -/

/-- The function `isatty (int fd)`. -/
def isatty (_fd : Int) : Int := 1

/-- The function `_close (int fd)`. -/
def _close (_fd : Int) : Int := 0

/-- The function `_fstat (int fd, struct stat *buf)`; the buffer is not touched. -/
def _fstat (_fd : Int) (_buf : Nat) : Int := -1

/-- The function `_lseek (int fd, off_t offset, int whence)`: the value returned and the
new value of `errno`.  `ESPIPE` is the constant of `errno.h`. -/
def _lseek (ESPIPE : Int) (_errno : Int) (_fd _offset _whence : Int) : Int × Int :=
  (-1, ESPIPE)

/-- The function `__gnat_get_executable_load_address (void)` of `adaint-xi.c`; `none` is
`NULL`. -/
def __gnat_get_executable_load_address : Option Nat := none

/-- A call of one of the stubs, with its arguments. -/
inductive StubCall where
  | isatty (fd : Int)
  | close (fd : Int)
  | fstat (fd : Int) (buf : Nat)
  | lseek (fd offset whence : Int)
  | load_address
deriving DecidableEq, Repr

/-- What a stub returns: an `int` (or `off_t`), or a pointer. -/
inductive StubResult where
  | int (v : Int)
  | pointer (p : Option Nat)
deriving DecidableEq, Repr

/-- One stub call on the only state a stub can touch, `errno`: result and new `errno`. -/
def stub_call (ESPIPE : Int) (errno : Int) : StubCall → StubResult × Int
  | StubCall.isatty fd => (StubResult.int (isatty fd), errno)
  | StubCall.close fd => (StubResult.int (_close fd), errno)
  | StubCall.fstat fd buf => (StubResult.int (_fstat fd buf), errno)
  | StubCall.lseek fd offset whence =>
    (StubResult.int (_lseek ESPIPE errno fd offset whence).1,
     (_lseek ESPIPE errno fd offset whence).2)
  | StubCall.load_address => (StubResult.pointer __gnat_get_executable_load_address, errno)

/-- The value of `errno` after a sequence of stub calls. -/
def stub_history (ESPIPE : Int) : Int → List StubCall → Int
  | errno, [] => errno
  | errno, c :: cs => stub_history ESPIPE (stub_call ESPIPE errno c).2 cs

/-! ## Theorems: bump allocator -/

theorem signed_difference_cases (W H x : Int) (hH : 0 < H)
    (hrel : W = 2 * H ∨ (W = 1 ∧ H = 1)) (hx1 : -W < x) (hx2 : x < W) :
    (x < -H ∧ (if x % W < H then x % W else x % W - W) = x + W) ∨
    (-H ≤ x ∧ x < H ∧ (if x % W < H then x % W else x % W - W) = x) ∨
    (H ≤ x ∧ (if x % W < H then x % W else x % W - W) = x - W) := by
  have hW : 0 < W := by omega
  by_cases hx : 0 ≤ x
  · have hm : x % W = x := Int.emod_eq_of_lt hx hx2
    rw [hm]
    by_cases hlt : x < H
    · right; left
      rw [if_pos hlt]
      exact ⟨by omega, hlt, rfl⟩
    · right; right
      rw [if_neg hlt]
      exact ⟨by omega, rfl⟩
  · have h1 : x % W = (x + W) % W := (Int.add_emod_self).symm
    have h2 : (x + W) % W = x + W := Int.emod_eq_of_lt (by omega) (by omega)
    rw [h1, h2]
    by_cases hlt : x + W < H
    · left
      rw [if_pos hlt]
      exact ⟨by omega, rfl⟩
    · right; left
      rw [if_neg hlt]
      refine ⟨by omega, by omega, by omega⟩

theorem two_pow_facts (w : Nat) :
    (0 : Int) < 2 ^ (w - 1) ∧
    ((2 : Int) ^ w = 2 * 2 ^ (w - 1) ∨ ((2 : Int) ^ w = 1 ∧ (2 : Int) ^ (w - 1) = 1)) := by
  refine ⟨by positivity, ?_⟩
  cases w with
  | zero => right; simp
  | succ k => left; simp [pow_succ, mul_comm]

theorem ptr_diff_cases (w a b : Nat) (ha : a < 2 ^ w) (hb : b < 2 ^ w) :
    ((a : Int) - b < -(2 ^ (w - 1)) ∧ ptr_diff w a b = (a : Int) - b + 2 ^ w) ∨
    (-(2 ^ (w - 1)) ≤ (a : Int) - b ∧ (a : Int) - b < 2 ^ (w - 1) ∧
      ptr_diff w a b = (a : Int) - b) ∨
    ((2 : Int) ^ (w - 1) ≤ (a : Int) - b ∧ ptr_diff w a b = (a : Int) - b - 2 ^ w) := by
  obtain ⟨hH, hrel⟩ := two_pow_facts w
  have ha' : (a : Int) < 2 ^ w := by exact_mod_cast ha
  have hb' : (b : Int) < 2 ^ w := by exact_mod_cast hb
  have h := signed_difference_cases (2 ^ w) (2 ^ (w - 1)) ((a : Int) - b) hH hrel
    (by omega) (by omega)
  unfold ptr_diff
  exact h

theorem wrap_id (w : Nat) (x : Int) (h0 : 0 ≤ x) (h1 : x < 2 ^ w) :
    ((x % 2 ^ w).toNat : Int) = x := by
  rw [Int.emod_eq_of_lt h0 h1, Int.toNat_of_nonneg h0]

theorem wrap_lt (w : Nat) (x : Int) : (x % 2 ^ w).toNat < 2 ^ w := by
  have hpos : (0 : Int) < 2 ^ w := by positivity
  have h1 := Int.emod_lt_of_pos x hpos
  have h0 := Int.emod_nonneg x (ne_of_gt hpos)
  have : ((x % 2 ^ w).toNat : Int) < ((2 ^ w : Nat) : Int) := by
    rw [Int.toNat_of_nonneg h0]; push_cast; exact h1
  exact_mod_cast this

theorem sbrk_ok (w : Nat) (s : Heap) (n : Int) (h : n ≤ ptr_diff w s.heap_end s.heap_ptr) :
    _sbrk w s n = (some s.heap_ptr,
      { heap_ptr := (((s.heap_ptr : Int) + n) % 2 ^ w).toNat, heap_end := s.heap_end }) := by
  have h' : ptr_diff w s.heap_end s.heap_ptr ≥ n := h
  simp [_sbrk, h']

theorem sbrk_fail (w : Nat) (s : Heap) (n : Int) (h : ptr_diff w s.heap_end s.heap_ptr < n) :
    _sbrk w s n = (none, s) := by
  have h' : ¬ ptr_diff w s.heap_end s.heap_ptr ≥ n := not_le.mpr h
  simp [_sbrk, h']

theorem sbrk_heap_end (w : Nat) (s : Heap) (n : Int) :
    (_sbrk w s n).2.heap_end = s.heap_end := by
  unfold _sbrk
  split <;> rfl

theorem sbrk_words (w : Nat) (s : Heap) (n : Int) (h : words w s) :
    words w (_sbrk w s n).2 := by
  unfold _sbrk
  split
  · exact ⟨wrap_lt w _, h.2⟩
  · exact h

theorem sbrk_none_unchanged (w : Nat) (s : Heap) (n : Int)
    (h : (_sbrk w s n).1 = none) : (_sbrk w s n).2 = s := by
  unfold _sbrk at h ⊢
  split
  · rename_i hc
    simp [hc] at h
  · rfl

/-- A successful call that does not wrap: the headroom fits a `ptrdiff_t`, the request is
within it, and the new cursor is not below address 0. -/
theorem sbrk_success_exact (w : Nat) (s : Heap) (n : Int) (hw : words w s)
    (hfit : (s.heap_end : Int) - s.heap_ptr < 2 ^ (w - 1))
    (h : n ≤ (s.heap_end : Int) - s.heap_ptr) (hlow : 0 ≤ (s.heap_ptr : Int) + n) :
    (_sbrk w s n).1 = some s.heap_ptr ∧
    ((_sbrk w s n).2.heap_ptr : Int) = s.heap_ptr + n ∧
    (_sbrk w s n).2.heap_end = s.heap_end := by
  have he' : (s.heap_end : Int) < 2 ^ w := by exact_mod_cast hw.2
  have hle : n ≤ ptr_diff w s.heap_end s.heap_ptr := by
    rcases ptr_diff_cases w s.heap_end s.heap_ptr hw.2 hw.1 with ⟨_, h2⟩ | ⟨_, _, h2⟩ | ⟨h1, _⟩
    · rw [h2]
      have : (0 : Int) < 2 ^ w := by positivity
      omega
    · rw [h2]; exact h
    · omega
  rw [sbrk_ok w s n hle]
  exact ⟨rfl, wrap_id w _ hlow (by omega), rfl⟩

/-- A failing call: the difference is not below the least `ptrdiff_t` and the request
exceeds it. -/
theorem sbrk_failure_exact (w : Nat) (s : Heap) (n : Int) (hw : words w s)
    (hfit : -(2 ^ (w - 1) : Int) ≤ (s.heap_end : Int) - s.heap_ptr)
    (h : (s.heap_end : Int) - s.heap_ptr < n) :
    _sbrk w s n = (none, s) := by
  apply sbrk_fail
  rcases ptr_diff_cases w s.heap_end s.heap_ptr hw.2 hw.1 with ⟨h1, _⟩ | ⟨_, _, h2⟩ | ⟨_, h2⟩
  · omega
  · rw [h2]; exact h
  · rw [h2]
    have : (0 : Int) < 2 ^ w := by positivity
    omega

/-- One call from a state with `heap_ptr <= heap_end`, for a request that does not ask
for a cursor below address 0: it fails and changes nothing, or it returns the cursor
and leaves `heap_ptr + n`, which is at most `heap_end`. -/
theorem sbrk_step (w : Nat) (s : Heap) (n : Int) (hw : words w s)
    (hpe : s.heap_ptr ≤ s.heap_end) (hlow : 0 ≤ (s.heap_ptr : Int) + n) :
    _sbrk w s n = (none, s) ∨
    ((_sbrk w s n).1 = some s.heap_ptr ∧
      ((_sbrk w s n).2.heap_ptr : Int) = s.heap_ptr + n ∧
      (s.heap_ptr : Int) + n ≤ s.heap_end ∧
      (_sbrk w s n).2.heap_end = s.heap_end) := by
  have he' : (s.heap_end : Int) < 2 ^ w := by exact_mod_cast hw.2
  have hpe' : (s.heap_ptr : Int) ≤ s.heap_end := by exact_mod_cast hpe
  by_cases hc : n ≤ ptr_diff w s.heap_end s.heap_ptr
  · right
    have hbound : (s.heap_ptr : Int) + n ≤ s.heap_end := by
      rcases ptr_diff_cases w s.heap_end s.heap_ptr hw.2 hw.1 with
        ⟨h1, _⟩ | ⟨_, _, h2⟩ | ⟨_, h2⟩
      · have : (0 : Int) < 2 ^ (w - 1) := by positivity
        omega
      · rw [h2] at hc; omega
      · rw [h2] at hc
        have : (0 : Int) < 2 ^ w := by positivity
        omega
    rw [sbrk_ok w s n hc]
    exact ⟨rfl, wrap_id w _ hlow (by omega), hbound, rfl⟩
  · left
    exact sbrk_fail w s n (not_le.mp hc)

theorem sbrk_step_inv (w : Nat) (floor : Nat) (s : Heap) (n : Int) (hw : words w s)
    (hi : heap_inv floor s) (hlow : (floor : Int) ≤ (s.heap_ptr : Int) + n) :
    heap_inv floor (_sbrk w s n).2 := by
  have h0 : (0 : Int) ≤ (floor : Int) := Int.ofNat_nonneg floor
  rcases sbrk_step w s n hw hi.2 (by omega) with h | ⟨_, h2, h3, h4⟩
  · rw [h]; exact hi
  · unfold heap_inv
    rw [h4]
    constructor
    · have : (floor : Int) ≤ ((_sbrk w s n).2.heap_ptr : Int) := by rw [h2]; exact hlow
      exact_mod_cast this
    · have : ((_sbrk w s n).2.heap_ptr : Int) ≤ (s.heap_end : Int) := by rw [h2]; exact h3
      exact_mod_cast this

theorem sbrk_states_inv (w : Nat) (floor : Nat) (ns : List Int) :
    ∀ s : Heap, words w s → heap_inv floor s → requests_stay_above w floor s ns →
      ∀ t ∈ sbrk_states w s ns, heap_inv floor t ∧ t.heap_end = s.heap_end := by
  induction ns with
  | nil => intro s _ _ _ t ht; simp [sbrk_states] at ht
  | cons n ns ih =>
    intro s hw hi hreq t ht
    obtain ⟨h1, h2⟩ := hreq
    have hi' := sbrk_step_inv w floor s n hw hi h1
    have hw' := sbrk_words w s n hw
    simp only [sbrk_states, List.mem_cons] at ht
    rcases ht with ht | ht
    · subst ht
      exact ⟨hi', sbrk_heap_end w s n⟩
    · have := ih _ hw' hi' h2 t ht
      exact ⟨this.1, this.2.trans (sbrk_heap_end w s n)⟩

theorem stay_above_of_nonneg (w : Nat) (floor : Nat) (ns : List Int)
    (hn : ∀ n ∈ ns, 0 ≤ n) :
    ∀ s : Heap, words w s → heap_inv floor s → requests_stay_above w floor s ns := by
  induction ns with
  | nil => intro s _ _; trivial
  | cons n ns ih =>
    intro s hw hi
    have h0 : 0 ≤ n := hn n (List.mem_cons_self n ns)
    have hfl : (floor : Int) ≤ (s.heap_ptr : Int) := by exact_mod_cast hi.1
    have h1 : (floor : Int) ≤ (s.heap_ptr : Int) + n := by omega
    exact ⟨h1, ih (fun m hm => hn m (List.mem_cons_of_mem n hm)) _
      (sbrk_words w s n hw) (sbrk_step_inv w floor s n hw hi h1)⟩

/-- C1 amended. For every allocator state of `w`-bit words whose headroom
`heap_end - heap_ptr` is below `2^(w-1)` (it fits a `ptrdiff_t`), and every signed
request `n` with `heap_end - heap_ptr >= n` that does not ask for a cursor below
address 0, `_sbrk n` returns the value the cursor had before the call and leaves the
cursor equal to that value plus exactly `n`; `heap_end` is unchanged. -/
theorem sbrk_success_returns_old_cursor (w : Nat) (s : Heap) (n : Int) (hw : words w s)
    (hfit : (s.heap_end : Int) - s.heap_ptr < 2 ^ (w - 1))
    (h : (s.heap_end : Int) - s.heap_ptr ≥ n) (hlow : 0 ≤ (s.heap_ptr : Int) + n) :
    (_sbrk w s n).1 = some s.heap_ptr ∧
    ((_sbrk w s n).2.heap_ptr : Int) = s.heap_ptr + n ∧
    (_sbrk w s n).2.heap_end = s.heap_end :=
  sbrk_success_exact w s n hw hfit h hlow

theorem sbrk_success_returns_old_cursor_witness :
    words 32 ⟨100, 200⟩ ∧
    (((⟨100, 200⟩ : Heap).heap_end : Int) - (⟨100, 200⟩ : Heap).heap_ptr < 2 ^ (32 - 1)) ∧
    (((⟨100, 200⟩ : Heap).heap_end : Int) - (⟨100, 200⟩ : Heap).heap_ptr ≥ 40) ∧
    (0 ≤ ((⟨100, 200⟩ : Heap).heap_ptr : Int) + 40) ∧
    (_sbrk 32 ⟨100, 200⟩ 40).1 = some (⟨100, 200⟩ : Heap).heap_ptr ∧
    ((_sbrk 32 ⟨100, 200⟩ 40).2.heap_ptr : Int) = (⟨100, 200⟩ : Heap).heap_ptr + 40 ∧
    (_sbrk 32 ⟨100, 200⟩ 40).2.heap_end = (⟨100, 200⟩ : Heap).heap_end :=
  ⟨by decide, by decide, by decide, by decide,
   sbrk_success_returns_old_cursor 32 ⟨100, 200⟩ 40 (by decide) (by decide) (by decide)
     (by decide)⟩

/-- C1 as stated fails on machine words.  On 64-bit words, with `heap_ptr = 16` and
`heap_end = 2^64 - 16` the difference is at least 1, but as a `ptrdiff_t` it is -32 and
`_sbrk 1` returns the failure value; and with the heap `[100, 200)` the request
`-2^31` is within the headroom and succeeds, but the cursor wraps to
`2^64 - 2147483548`, which is not the old cursor plus `n`. -/
theorem sbrk_success_counterexample :
    (((2 ^ 64 - 16 : Nat) : Int) - ((16 : Nat) : Int) ≥ 1 ∧
      ptr_diff 64 (2 ^ 64 - 16) 16 = -32 ∧
      _sbrk 64 ⟨16, 2 ^ 64 - 16⟩ 1 = (none, ⟨16, 2 ^ 64 - 16⟩)) ∧
    (((200 : Nat) : Int) - ((100 : Nat) : Int) ≥ -2147483648 ∧
      _sbrk 64 ⟨100, 200⟩ (-2147483648) = (some 100, ⟨2 ^ 64 - 2147483548, 200⟩) ∧
      ((_sbrk 64 ⟨100, 200⟩ (-2147483648)).2.heap_ptr : Int)
        ≠ ((100 : Nat) : Int) + (-2147483648)) := by
  decide

theorem sbrk_calls_cons (w : Nat) (s : Heap) (n : Int) (ns : List Int) :
    sbrk_calls w s (n :: ns) =
      ((n, (_sbrk w s n).1) :: (sbrk_calls w (_sbrk w s n).2 ns).1,
       (sbrk_calls w (_sbrk w s n).2 ns).2) := rfl

theorem sbrk_calls_all_fail (w : Nat) (ns : List Int) (s : Heap)
    (hn : ∀ n ∈ ns, _sbrk w s n = (none, s)) :
    sbrk_calls w s ns = (ns.map (fun n => (n, none)), s) := by
  induction ns with
  | nil => rfl
  | cons n ns ih =>
    rw [sbrk_calls_cons, hn n (List.mem_cons_self n ns)]
    simp only [ih (fun m hm => hn m (List.mem_cons_of_mem n hm)), List.map_cons]

/-- C2 amended. For every allocator state of `w`-bit words whose difference
`heap_end - heap_ptr` is at least `-2^(w-1)` (it is not wrapped upward as a
`ptrdiff_t`), and every signed request `n` with `heap_end - heap_ptr < n`, `_sbrk n`
returns the failure value and leaves the globals as they were; repeating the request
any number of times returns the failure value every time and never changes the
globals. -/
theorem sbrk_failure_idempotent (w : Nat) (s : Heap) (n : Int) (hw : words w s)
    (hfit : -(2 ^ (w - 1) : Int) ≤ (s.heap_end : Int) - s.heap_ptr)
    (h : (s.heap_end : Int) - s.heap_ptr < n) :
    _sbrk w s n = (none, s) ∧
    ∀ k : Nat, sbrk_calls w s (List.replicate k n) = (List.replicate k (n, none), s) := by
  have hf := sbrk_failure_exact w s n hw hfit h
  refine ⟨hf, fun k => ?_⟩
  rw [sbrk_calls_all_fail w (List.replicate k n) s
    (fun m hm => by rw [List.eq_of_mem_replicate hm]; exact hf)]
  simp

theorem sbrk_failure_idempotent_witness :
    words 32 ⟨190, 200⟩ ∧
    (-(2 ^ (32 - 1) : Int) ≤ ((⟨190, 200⟩ : Heap).heap_end : Int)
        - (⟨190, 200⟩ : Heap).heap_ptr) ∧
    (((⟨190, 200⟩ : Heap).heap_end : Int) - (⟨190, 200⟩ : Heap).heap_ptr < 11) ∧
    (_sbrk 32 ⟨190, 200⟩ 11 = (none, ⟨190, 200⟩) ∧
     ∀ k : Nat, sbrk_calls 32 ⟨190, 200⟩ (List.replicate k 11)
        = (List.replicate k (11, none), ⟨190, 200⟩)) :=
  ⟨by decide, by decide, by decide,
   sbrk_failure_idempotent 32 ⟨190, 200⟩ 11 (by decide) (by decide) (by decide)⟩

/-- C2 as stated fails on machine words: on 32-bit words, with `heap_ptr = 2^32 - 10` and
`heap_end = 20` the difference `heap_end - heap_ptr` is below 20, but as a `ptrdiff_t`
it is 30, so `_sbrk 20` succeeds and moves the cursor to 10. -/
theorem sbrk_failure_counterexample :
    ((20 : Nat) : Int) - ((2 ^ 32 - 10 : Nat) : Int) < 20 ∧
    ptr_diff 32 20 (2 ^ 32 - 10) = 30 ∧
    _sbrk 32 ⟨2 ^ 32 - 10, 20⟩ 20 = (some (2 ^ 32 - 10), ⟨10, 20⟩) := by
  decide

/-- C3 amended. For a region with `heap_start <= heap_end` (a `w`-bit address) and every
finite sequence of `_sbrk` calls with signed sizes, whether each call succeeds or
fails: `heap_start <= heap_ptr <= heap_end` holds in the initial state; `heap_ptr <=
heap_end` holds after every call as long as no request asks for a cursor below
address 0, where the word addition wraps; and `heap_start <= heap_ptr` holds too as
long as no request asks for a cursor below `heap_start`, so for all non-negative
sizes.  `heap_end` keeps its value. -/
theorem cursor_within_heap (w : Nat) (heap_start heap_end : Nat) (ns : List Int)
    (hcfg : heap_start ≤ heap_end) (hw : heap_end < 2 ^ w) :
    heap_inv heap_start (heap_static heap_start heap_end) ∧
    (requests_stay_above w 0 (heap_static heap_start heap_end) ns →
      ∀ t ∈ sbrk_states w (heap_static heap_start heap_end) ns,
        t.heap_ptr ≤ t.heap_end ∧ t.heap_end = heap_end) ∧
    (requests_stay_above w heap_start (heap_static heap_start heap_end) ns →
      ∀ t ∈ sbrk_states w (heap_static heap_start heap_end) ns,
        heap_inv heap_start t ∧ t.heap_end = heap_end) ∧
    ((∀ n ∈ ns, 0 ≤ n) →
      ∀ t ∈ sbrk_states w (heap_static heap_start heap_end) ns,
        heap_inv heap_start t ∧ t.heap_end = heap_end) := by
  have hwords : words w (heap_static heap_start heap_end) :=
    ⟨lt_of_le_of_lt hcfg hw, hw⟩
  have h0 : heap_inv heap_start (heap_static heap_start heap_end) := ⟨le_refl _, hcfg⟩
  have h00 : heap_inv 0 (heap_static heap_start heap_end) := ⟨Nat.zero_le _, hcfg⟩
  refine ⟨h0, fun hreq t ht => ?_, fun hreq => ?_, fun hn => ?_⟩
  · have := sbrk_states_inv w 0 ns _ hwords h00 hreq t ht
    exact ⟨this.1.2, this.2⟩
  · exact sbrk_states_inv w heap_start ns _ hwords h0 hreq
  · exact sbrk_states_inv w heap_start ns _ hwords h0
      (stay_above_of_nonneg w heap_start ns hn _ hwords h0)

theorem cursor_within_heap_witness :
    100 ≤ 200 ∧ 200 < 2 ^ 32 ∧
    requests_stay_above 32 100 (heap_static 100 200) [10, -5, 3, 95, 92] ∧
    sbrk_states 32 (heap_static 100 200) [10, -5, 3, 95, 92]
      = [⟨110, 200⟩, ⟨105, 200⟩, ⟨108, 200⟩, ⟨108, 200⟩, ⟨200, 200⟩] ∧
    (∀ t ∈ sbrk_states 32 (heap_static 100 200) [10, -5, 3, 95, 92],
      heap_inv 100 t ∧ t.heap_end = 200) :=
  have hreq : requests_stay_above 32 100 (heap_static 100 200) [10, -5, 3, 95, 92] :=
    ⟨by decide, by decide, by decide, by decide, by decide, trivial⟩
  ⟨by decide, by decide, hreq, by decide,
   (cursor_within_heap 32 100 200 [10, -5, 3, 95, 92] (by decide) (by decide)).2.2.1 hreq⟩

/-- C3 as stated fails: on 32-bit words a successful `_sbrk (-1)` on the heap `[100, 200)`
leaves the cursor at 99, below `heap_start`; a successful `_sbrk (-2^31)` wraps the
cursor to `2^31 + 100`, above `heap_end`; and with `heap_end = 50 < heap_start = 100`
the initial state already has the cursor above `heap_end`. -/
theorem cursor_within_heap_counterexample :
    (¬ ∀ t ∈ sbrk_states 32 (heap_static 100 200) [-1], heap_inv 100 t) ∧
    sbrk_states 32 (heap_static 100 200) [-2147483648] = [⟨2147483748, 200⟩] ∧
    (¬ ∀ t ∈ sbrk_states 32 (heap_static 100 200) [-2147483648], t.heap_ptr ≤ t.heap_end) ∧
    ¬ heap_inv 100 (heap_static 100 50) := by
  decide

/-- C4. No partial allocation: from a state of `w`-bit words with
`heap_start <= heap_ptr <= heap_end` and for a request `n >= 0`, a successful `_sbrk n`
returns a region `[base, base+n)` that lies inside `[heap_start, heap_end)` and leaves
the cursor within `heap_start .. heap_end`; a failing one returns the failure value
and changes nothing. -/
theorem sbrk_no_partial_allocation (w : Nat) (heap_start : Nat) (s : Heap) (n : Int)
    (hw : s.heap_end < 2 ^ w) (hi : heap_inv heap_start s) (hn : 0 ≤ n) :
    (∀ base, (_sbrk w s n).1 = some base →
        heap_start ≤ base ∧ (base : Int) + n ≤ s.heap_end ∧
        (∀ a : Int, (base : Int) ≤ a → a < (base : Int) + n →
          (heap_start : Int) ≤ a ∧ a < s.heap_end) ∧
        heap_inv heap_start (_sbrk w s n).2 ∧ (_sbrk w s n).2.heap_end = s.heap_end) ∧
    ((_sbrk w s n).1 = none → (_sbrk w s n).2 = s) := by
  have hwords : words w s := ⟨lt_of_le_of_lt hi.2 hw, hw⟩
  have hfl : (heap_start : Int) ≤ (s.heap_ptr : Int) := by exact_mod_cast hi.1
  have hlow : (heap_start : Int) ≤ (s.heap_ptr : Int) + n := by omega
  have hinv := sbrk_step_inv w heap_start s n hwords hi hlow
  refine ⟨fun base hb => ?_, sbrk_none_unchanged w s n⟩
  have h0 : (0 : Int) ≤ (heap_start : Int) := Int.ofNat_nonneg heap_start
  rcases sbrk_step w s n hwords hi.2 (by omega) with h | ⟨h1, h2, h3, h4⟩
  · rw [h] at hb; simp at hb
  · rw [h1] at hb
    simp only [Option.some.injEq] at hb
    subst hb
    exact ⟨hi.1, h3, fun a ha1 ha2 => ⟨by omega, by omega⟩, hinv, h4⟩

theorem sbrk_no_partial_allocation_witness :
    (⟨150, 200⟩ : Heap).heap_end < 2 ^ 32 ∧ heap_inv 100 ⟨150, 200⟩ ∧ (0 : Int) ≤ 50 ∧
    ((∀ base, (_sbrk 32 ⟨150, 200⟩ 50).1 = some base →
        100 ≤ base ∧ (base : Int) + 50 ≤ (⟨150, 200⟩ : Heap).heap_end ∧
        (∀ a : Int, (base : Int) ≤ a → a < (base : Int) + 50 →
          ((100 : Nat) : Int) ≤ a ∧ a < (⟨150, 200⟩ : Heap).heap_end) ∧
        heap_inv 100 (_sbrk 32 ⟨150, 200⟩ 50).2 ∧
        (_sbrk 32 ⟨150, 200⟩ 50).2.heap_end = (⟨150, 200⟩ : Heap).heap_end) ∧
     ((_sbrk 32 ⟨150, 200⟩ 50).1 = none → (_sbrk 32 ⟨150, 200⟩ 50).2 = ⟨150, 200⟩)) :=
  ⟨by decide, by decide, by decide,
   sbrk_no_partial_allocation 32 100 ⟨150, 200⟩ 50 (by decide) (by decide) (by decide)⟩

theorem regions_cons_some (n : Int) (b : Nat) (rs : List (Int × Option Nat)) :
    regions ((n, some b) :: rs) = (b, n) :: regions rs := by
  simp [regions]

theorem regions_cons_none (n : Int) (rs : List (Int × Option Nat)) :
    regions ((n, none) :: rs) = regions rs := by
  simp [regions]

theorem regions_above_cursor (w : Nat) (ns : List Int) (hn : ∀ n ∈ ns, 0 ≤ n) :
    ∀ s : Heap, words w s → s.heap_ptr ≤ s.heap_end →
      ∀ r ∈ regions (sbrk_calls w s ns).1, s.heap_ptr ≤ r.1 := by
  induction ns with
  | nil => intro s _ _ r hr; simp [sbrk_calls, regions] at hr
  | cons n ns ih =>
    intro s hw hpe r hr
    have h0 : 0 ≤ n := hn n (List.mem_cons_self n ns)
    have hp0 : (0 : Int) ≤ (s.heap_ptr : Int) := Int.ofNat_nonneg _
    have ih' := ih (fun m hm => hn m (List.mem_cons_of_mem n hm))
    have hw' := sbrk_words w s n hw
    rw [sbrk_calls_cons] at hr
    rcases sbrk_step w s n hw hpe (by omega) with h | ⟨h1, h2, h3, h4⟩
    · rw [h] at hr
      simp only [regions_cons_none] at hr
      exact ih' s hw hpe r hr
    · rw [h1] at hr
      simp only [regions_cons_some, List.mem_cons] at hr
      rcases hr with hr | hr
      · subst hr; exact le_refl _
      · have hpe' : (_sbrk w s n).2.heap_ptr ≤ (_sbrk w s n).2.heap_end := by
          rw [h4]
          have : ((_sbrk w s n).2.heap_ptr : Int) ≤ (s.heap_end : Int) := by rw [h2]; exact h3
          exact_mod_cast this
        have := ih' _ hw' hpe' r hr
        have hle : (s.heap_ptr : Int) ≤ ((_sbrk w s n).2.heap_ptr : Int) := by rw [h2]; omega
        have hle' : s.heap_ptr ≤ (_sbrk w s n).2.heap_ptr := by exact_mod_cast hle
        exact le_trans hle' this

theorem regions_pairwise (w : Nat) (ns : List Int) (hn : ∀ n ∈ ns, 0 ≤ n) :
    ∀ s : Heap, words w s → s.heap_ptr ≤ s.heap_end →
      (regions (sbrk_calls w s ns).1).Pairwise
        (fun a b => a.1 ≤ b.1 ∧ (a.1 : Int) + a.2 ≤ b.1) := by
  induction ns with
  | nil => intro s _ _; simp [sbrk_calls, regions]
  | cons n ns ih =>
    intro s hw hpe
    have h0 : 0 ≤ n := hn n (List.mem_cons_self n ns)
    have hp0 : (0 : Int) ≤ (s.heap_ptr : Int) := Int.ofNat_nonneg _
    have hn' : ∀ m ∈ ns, 0 ≤ m := fun m hm => hn m (List.mem_cons_of_mem n hm)
    have hw' := sbrk_words w s n hw
    rw [sbrk_calls_cons]
    rcases sbrk_step w s n hw hpe (by omega) with h | ⟨h1, h2, h3, h4⟩
    · rw [h]
      simp only [regions_cons_none]
      exact ih hn' s hw hpe
    · have hpe' : (_sbrk w s n).2.heap_ptr ≤ (_sbrk w s n).2.heap_end := by
        rw [h4]
        have : ((_sbrk w s n).2.heap_ptr : Int) ≤ (s.heap_end : Int) := by rw [h2]; exact h3
        exact_mod_cast this
      rw [h1]
      simp only [regions_cons_some, List.pairwise_cons]
      refine ⟨fun r hr => ?_, ih hn' _ hw' hpe'⟩
      have hr' := regions_above_cursor w ns hn' _ hw' hpe' r hr
      have hr'' : ((_sbrk w s n).2.heap_ptr : Int) ≤ (r.1 : Int) := by exact_mod_cast hr'
      rw [h2] at hr''
      refine ⟨?_, hr''⟩
      have : (s.heap_ptr : Int) ≤ (r.1 : Int) := by omega
      exact_mod_cast this

/-- C5 amended. Monotonicity: from every state of `w`-bit words with
`heap_ptr <= heap_end` (the initial state of a configuration with
`heap_start <= heap_end`, and every state reached from it by non-negative sizes), over
every finite sequence of `_sbrk` calls with non-negative sizes the bases returned by
the successful calls are non-decreasing in call order, and the region
`[base, base+n)` of each successful call has no address in common with the region of
any earlier successful call. -/
theorem sbrk_monotone_disjoint (w : Nat) (s : Heap) (ns : List Int)
    (hw : words w s) (hpe : s.heap_ptr ≤ s.heap_end) (hn : ∀ n ∈ ns, 0 ≤ n) :
    (regions (sbrk_calls w s ns).1).Pairwise
      (fun a b => a.1 ≤ b.1 ∧
        ∀ x : Int, ¬ (((a.1 : Int) ≤ x ∧ x < (a.1 : Int) + a.2) ∧
          ((b.1 : Int) ≤ x ∧ x < (b.1 : Int) + b.2))) := by
  refine (regions_pairwise w ns hn s hw hpe).imp ?_
  intro a b hab
  refine ⟨hab.1, fun x hx => ?_⟩
  omega

theorem sbrk_monotone_disjoint_witness :
    words 32 ⟨100, 200⟩ ∧ (⟨100, 200⟩ : Heap).heap_ptr ≤ (⟨100, 200⟩ : Heap).heap_end ∧
    (∀ n ∈ [30, 0, 90, 20, 50], (0 : Int) ≤ n) ∧
    regions (sbrk_calls 32 ⟨100, 200⟩ [30, 0, 90, 20, 50]).1
      = [(100, 30), (130, 0), (130, 20), (150, 50)] ∧
    (regions (sbrk_calls 32 ⟨100, 200⟩ [30, 0, 90, 20, 50]).1).Pairwise
      (fun a b => a.1 ≤ b.1 ∧
        ∀ x : Int, ¬ (((a.1 : Int) ≤ x ∧ x < (a.1 : Int) + a.2) ∧
          ((b.1 : Int) ≤ x ∧ x < (b.1 : Int) + b.2))) :=
  ⟨by decide, by decide, by decide, by decide,
   sbrk_monotone_disjoint 32 ⟨100, 200⟩ [30, 0, 90, 20, 50] (by decide) (by decide)
     (by decide)⟩

/-- C5 as stated fails on machine words: on 32-bit words, from `heap_ptr = 2^32 - 10`,
`heap_end = 20` (a configuration with `heap_end < heap_start`) the calls `_sbrk 20` and
`_sbrk 5` both succeed and return the bases `2^32 - 10` and then 10. -/
theorem sbrk_monotone_counterexample :
    (∀ n ∈ [20, 5], (0 : Int) ≤ n) ∧
    regions (sbrk_calls 32 ⟨2 ^ 32 - 10, 20⟩ [20, 5]).1 = [(2 ^ 32 - 10, 20), (10, 5)] ∧
    ¬ (regions (sbrk_calls 32 ⟨2 ^ 32 - 10, 20⟩ [20, 5]).1).Pairwise
        (fun a b => a.1 ≤ b.1) := by
  decide

/-- A sequence of non-negative sizes that sums to the length of a heap shorter than
`2^(w-1)` meets the conditions on the partial sums under which the heap is exhausted
call by call. -/
theorem prefix_sums_of_nonneg (w : Nat) (heap_start heap_end : Nat) (ns : List Int)
    (hn : ∀ n ∈ ns, 0 ≤ n) (hsum : ns.sum = (heap_end : Int) - heap_start)
    (hlen : (heap_end : Int) - heap_start < 2 ^ (w - 1)) :
    ∀ k : Nat, (ns.take k).sum ≤ (heap_end : Int) - heap_start ∧
      0 ≤ (heap_start : Int) + (ns.take k).sum ∧
      (heap_end : Int) - heap_start - (ns.take k).sum < 2 ^ (w - 1) := by
  have key : ∀ (l : List Int), (∀ n ∈ l, 0 ≤ n) →
      ∀ k : Nat, 0 ≤ (l.take k).sum ∧ (l.take k).sum ≤ l.sum := by
    intro l
    induction l with
    | nil => intro _ k; simp
    | cons a l ih =>
      intro hl k
      have ha : 0 ≤ a := hl a (List.mem_cons_self a l)
      have ih' := ih (fun m hm => hl m (List.mem_cons_of_mem a hm))
      cases k with
      | zero =>
        have := ih' 0
        simp only [List.take_zero, List.sum_nil] at this
        simp only [List.take_zero, List.sum_nil, List.sum_cons]
        omega
      | succ k =>
        have := ih' k
        simp only [List.take_succ_cons, List.sum_cons]
        omega
  intro k
  have := key ns hn k
  have h0 : (0 : Int) ≤ (heap_start : Int) := Int.ofNat_nonneg _
  refine ⟨by omega, by omega, by omega⟩

theorem heap_cheri_degenerate (w : Nat) (crrm : Nat → Nat) (pe : Nat) (ddc : Capability)
    (heap_start heap_end : Nat) (hdeg : heap_end < heap_start) (hw : heap_start < 2 ^ w)
    (hmask : crrm 0 % 2 ^ w = 2 ^ w - 1) :
    heap_cheri w crrm pe ddc heap_start heap_end = heap_static heap_start heap_end := by
  have hnle : ¬ heap_start ≤ heap_end := not_le.mpr hdeg
  have hpos : 0 < 2 ^ w := Nat.two_pow_pos w
  have hinv : word_not w (2 ^ w - 1) = 0 := by
    unfold word_not
    rw [Nat.mod_eq_of_lt (by omega)]
    omega
  have he : heap_end < 2 ^ w := lt_trans hdeg hw
  simp only [heap_cheri, __gnat_heap_init, heap_static, hnle, if_false, hmask, hinv,
    Nat.add_zero, Nat.and_pow_two_sub_one_eq_mod, Nat.mod_mod, Nat.mod_eq_of_lt hw,
    Nat.mod_eq_of_lt he, cheri_address_set, cheri_bounds_set_exact, cheri_perms_and]

theorem sbrk_degenerate_fails (w : Nat) (heap_start heap_end : Nat)
    (hdeg : heap_end < heap_start) (hw : heap_start < 2 ^ w)
    (hnear : (heap_start : Int) - heap_end ≤ 2 ^ (w - 1)) (n : Int)
    (hn : (heap_end : Int) - heap_start < n) :
    _sbrk w (heap_static heap_start heap_end) n = (none, heap_static heap_start heap_end) := by
  have hwords : words w (heap_static heap_start heap_end) := ⟨hw, lt_trans hdeg hw⟩
  exact sbrk_failure_exact w _ n hwords (by simp only [heap_static]; omega)
    (by simp only [heap_static]; exact hn)

/-- C7 amended. Degenerate heap: when `heap_end < heap_start` and `heap_end` is at most
`2^(w-1)` below `heap_start` (so that the `ptrdiff_t` headroom is negative), from the
initial state `_sbrk n` returns the failure value for every `n > 0`, and `_sbrk 0`
returns the failure value too, the cursor staying at `heap_start`.  This holds from
the static initial state of the plain-pointer build, and after `__gnat_heap_init` in the
capability build when the representable-alignment mask for length 0 is all ones. -/
theorem sbrk_degenerate_heap (w : Nat) (heap_start heap_end : Nat)
    (hdeg : heap_end < heap_start) (hw : heap_start < 2 ^ w)
    (hnear : (heap_start : Int) - heap_end ≤ 2 ^ (w - 1))
    (crrm : Nat → Nat) (pe : Nat) (ddc : Capability)
    (hmask : crrm 0 % 2 ^ w = 2 ^ w - 1) :
    ((∀ n : Int, 0 < n →
        _sbrk w (heap_static heap_start heap_end) n
          = (none, heap_static heap_start heap_end)) ∧
      _sbrk w (heap_static heap_start heap_end) 0
        = (none, heap_static heap_start heap_end)) ∧
    ((∀ n : Int, 0 < n →
        _sbrk w (heap_cheri w crrm pe ddc heap_start heap_end) n
          = (none, heap_static heap_start heap_end)) ∧
      _sbrk w (heap_cheri w crrm pe ddc heap_start heap_end) 0
        = (none, heap_static heap_start heap_end)) := by
  rw [heap_cheri_degenerate w crrm pe ddc heap_start heap_end hdeg hw hmask]
  have hd : (heap_end : Int) < (heap_start : Int) := by exact_mod_cast hdeg
  refine ⟨⟨fun n hn => ?_, ?_⟩, ⟨fun n hn => ?_, ?_⟩⟩ <;>
    exact sbrk_degenerate_fails w heap_start heap_end hdeg hw hnear _ (by omega)

theorem sbrk_degenerate_heap_witness :
    (50 : Nat) < 100 ∧ 100 < 2 ^ 32 ∧ ((100 : Nat) : Int) - ((50 : Nat) : Int) ≤ 2 ^ (32 - 1) ∧
    (fun _ : Nat => 4294967295) 0 % 2 ^ 32 = 2 ^ 32 - 1 ∧
    (((∀ n : Int, 0 < n → _sbrk 32 (heap_static 100 50) n = (none, heap_static 100 50)) ∧
      _sbrk 32 (heap_static 100 50) 0 = (none, heap_static 100 50)) ∧
     ((∀ n : Int, 0 < n →
        _sbrk 32 (heap_cheri 32 (fun _ => 4294967295) 2 ⟨0, 0, 4294967296, 7⟩ 100 50) n
          = (none, heap_static 100 50)) ∧
      _sbrk 32 (heap_cheri 32 (fun _ => 4294967295) 2 ⟨0, 0, 4294967296, 7⟩ 100 50) 0
        = (none, heap_static 100 50))) :=
  ⟨by decide, by decide, by decide, by decide,
   sbrk_degenerate_heap 32 100 50 (by decide) (by decide) (by decide)
     (fun _ => 4294967295) 2 ⟨0, 0, 4294967296, 7⟩ (by decide)⟩

/-- C7 as stated fails.  With `heap_start = 100` and `heap_end = 50` the call `_sbrk 0` from
the initial state returns the failure value, not `heap_start`.  And on 32-bit words,
with `heap_start = 0xF0000000` and `heap_end = 0x10000000` the `ptrdiff_t` headroom is
`0x20000000`, and `_sbrk 1` succeeds. -/
theorem sbrk_degenerate_heap_counterexample :
    (_sbrk 32 (heap_static 100 50) 0 = (none, heap_static 100 50) ∧
      (_sbrk 32 (heap_static 100 50) 0).1 ≠ some 100) ∧
    ((268435456 : Nat) < 4026531840 ∧
      ptr_diff 32 268435456 4026531840 = 536870912 ∧
      _sbrk 32 (heap_static 4026531840 268435456) 1
        = (some 4026531840, ⟨4026531841, 268435456⟩)) := by
  decide

/-- C8 amended. Degenerate configuration: when `heap_end` is before `heap_start`, by at most
`2^(w-1)`, every `_sbrk n` call of a sequence whose requests all exceed
`heap_end - heap_start`, and so every call with `n >= 0`, returns the failure value and
leaves the globals unchanged (a request at or below that negative headroom succeeds
and moves the cursor down).  This holds from the static initial state of the
plain-pointer build, and after `__gnat_heap_init` in the capability build when the
representable-alignment mask for length 0 is all ones. -/
theorem sbrk_degenerate_rejects (w : Nat) (heap_start heap_end : Nat)
    (hdeg : heap_end < heap_start) (hw : heap_start < 2 ^ w)
    (hnear : (heap_start : Int) - heap_end ≤ 2 ^ (w - 1))
    (ns : List Int) (hn : ∀ n ∈ ns, (heap_end : Int) - heap_start < n)
    (crrm : Nat → Nat) (pe : Nat) (ddc : Capability)
    (hmask : crrm 0 % 2 ^ w = 2 ^ w - 1) :
    (sbrk_calls w (heap_static heap_start heap_end) ns
        = (ns.map (fun n => (n, none)), heap_static heap_start heap_end) ∧
      ∀ n : Int, 0 ≤ n →
        _sbrk w (heap_static heap_start heap_end) n
          = (none, heap_static heap_start heap_end)) ∧
    (sbrk_calls w (heap_cheri w crrm pe ddc heap_start heap_end) ns
        = (ns.map (fun n => (n, none)), heap_static heap_start heap_end) ∧
      ∀ n : Int, 0 ≤ n →
        _sbrk w (heap_cheri w crrm pe ddc heap_start heap_end) n
          = (none, heap_static heap_start heap_end)) := by
  rw [heap_cheri_degenerate w crrm pe ddc heap_start heap_end hdeg hw hmask]
  have hd : (heap_end : Int) < (heap_start : Int) := by exact_mod_cast hdeg
  have hall : sbrk_calls w (heap_static heap_start heap_end) ns
      = (ns.map (fun n => (n, none)), heap_static heap_start heap_end) :=
    sbrk_calls_all_fail w ns _
      (fun n hm => sbrk_degenerate_fails w heap_start heap_end hdeg hw hnear n (hn n hm))
  have hnn : ∀ n : Int, 0 ≤ n →
      _sbrk w (heap_static heap_start heap_end) n
        = (none, heap_static heap_start heap_end) :=
    fun n h0 => sbrk_degenerate_fails w heap_start heap_end hdeg hw hnear n (by omega)
  exact ⟨⟨hall, hnn⟩, ⟨hall, hnn⟩⟩

theorem sbrk_degenerate_rejects_witness :
    (50 : Nat) < 100 ∧ 100 < 2 ^ 32 ∧ ((100 : Nat) : Int) - ((50 : Nat) : Int) ≤ 2 ^ (32 - 1) ∧
    (∀ n ∈ [0, 8, -49, 1], ((50 : Nat) : Int) - ((100 : Nat) : Int) < n) ∧
    (fun _ : Nat => 4294967295) 0 % 2 ^ 32 = 2 ^ 32 - 1 ∧
    ((sbrk_calls 32 (heap_static 100 50) [0, 8, -49, 1]
        = ([0, 8, -49, 1].map (fun n => (n, none)), heap_static 100 50) ∧
      ∀ n : Int, 0 ≤ n → _sbrk 32 (heap_static 100 50) n = (none, heap_static 100 50)) ∧
     (sbrk_calls 32 (heap_cheri 32 (fun _ => 4294967295) 2 ⟨0, 0, 4294967296, 7⟩ 100 50)
          [0, 8, -49, 1]
        = ([0, 8, -49, 1].map (fun n => (n, none)), heap_static 100 50) ∧
      ∀ n : Int, 0 ≤ n →
        _sbrk 32 (heap_cheri 32 (fun _ => 4294967295) 2 ⟨0, 0, 4294967296, 7⟩ 100 50) n
          = (none, heap_static 100 50))) :=
  ⟨by decide, by decide, by decide, by decide, by decide,
   sbrk_degenerate_rejects 32 100 50 (by decide) (by decide) (by decide)
     [0, 8, -49, 1] (by decide) (fun _ => 4294967295) 2 ⟨0, 0, 4294967296, 7⟩ (by decide)⟩

/-- C8 as stated fails.  With `heap_start = 100` and `heap_end = 50` the call `_sbrk (-50)`
from the static initial state succeeds, returns 100 and moves the cursor to 50.  And
on 32-bit words, with `heap_start = 0xF0000000` and `heap_end = 0x10000000` the call
`_sbrk 1` succeeds. -/
theorem sbrk_degenerate_rejects_counterexample :
    _sbrk 32 (heap_static 100 50) (-50) = (some 100, ⟨50, 50⟩) ∧
    (_sbrk 32 (heap_static 4026531840 268435456) 1).1 = some 4026531840 := by
  decide

/-! ## Theorems: console write -/

theorem tx_ready_zero (s : Console) (h : s.tx_busy = 0) :
    system__text_io__is_tx_ready s
      = (true, { s with calls := s.calls ++ [Call.tx_ready true] }) := by
  simp [system__text_io__is_tx_ready, h]

theorem tx_ready_succ (s : Console) (k : Nat) (h : s.tx_busy = k + 1) :
    system__text_io__is_tx_ready s
      = (false, { s with tx_busy := k, calls := s.calls ++ [Call.tx_ready false] }) := by
  simp [system__text_io__is_tx_ready, h]

theorem write_console_ok (c : Char) :
    ∀ (fuel : Nat) (s : Console), s.tx_busy < fuel →
      ∃ s', write_console fuel c s = some s' ∧ sent s' = sent s ++ [c] ∧
        s'.cr_lf = s.cr_lf ∧ s'.tx_delay = s.tx_delay ∧ s'.tx_busy = s.tx_delay ∧
        s'.initialized = s.initialized ∧ s'.rx = s.rx := by
  intro fuel
  induction fuel with
  | zero => intro s h; omega
  | succ fuel ih =>
    intro s h
    rcases hb : s.tx_busy with _ | k
    · refine ⟨system__text_io__put c { s with calls := s.calls ++ [Call.tx_ready true] },
        ?_, ?_, rfl, rfl, rfl, rfl, rfl⟩
      · simp [write_console, tx_ready_zero s hb]
      · simp [sent, system__text_io__put, List.filterMap_append]
    · have hlt : ({ s with tx_busy := k, calls := s.calls ++ [Call.tx_ready false] }
          : Console).tx_busy < fuel := by simp only; omega
      obtain ⟨s', h1, h2, h3, h4, h5, h6, h7⟩ := ih _ hlt
      refine ⟨s', ?_, ?_, h3, h4, h5, h6, h7⟩
      · simp [write_console, tx_ready_succ s k hb, h1]
      · rw [h2]
        simp [sent, List.filterMap_append]

theorem cr_lf_query_fst (s : Console) :
    (system__text_io__use_cr_lf_for_new_line s).1 = s.cr_lf := rfl

theorem cr_lf_query_snd (s : Console) :
    sent (system__text_io__use_cr_lf_for_new_line s).2 = sent s ∧
    (system__text_io__use_cr_lf_for_new_line s).2.cr_lf = s.cr_lf ∧
    (system__text_io__use_cr_lf_for_new_line s).2.tx_busy = s.tx_busy ∧
    (system__text_io__use_cr_lf_for_new_line s).2.tx_delay = s.tx_delay ∧
    (system__text_io__use_cr_lf_for_new_line s).2.initialized = s.initialized ∧
    (system__text_io__use_cr_lf_for_new_line s).2.rx = s.rx := by
  refine ⟨?_, rfl, rfl, rfl, rfl, rfl⟩
  simp [sent, system__text_io__use_cr_lf_for_new_line, List.filterMap_append]

theorem with_cr_cons (cr_lf : Bool) (c : Char) (cs : List Char) :
    with_cr cr_lf (c :: cs)
      = (if c = '\n' ∧ cr_lf = true then ['\r', c] else [c]) ++ with_cr cr_lf cs := by
  simp [with_cr, List.flatMap_cons]

theorem bytes_shift_succ (buf : Nat → Char) (i k : Nat) :
    (List.range (k + 1)).map (fun j => buf (i + j))
      = buf i :: (List.range k).map (fun j => buf (i + 1 + j)) := by
  rw [List.range_succ_eq_map, List.map_cons, List.map_map]
  simp only [Nat.add_zero, List.cons.injEq, true_and]
  apply List.map_congr_left
  intro j _
  simp only [Function.comp, Nat.succ_eq_add_one]
  congr 1
  omega

theorem write_loop_succ (fuel : Nat) (buf : Nat → Char) (k i : Nat) (s : Console) :
    write_loop fuel buf (k + 1) i s =
      match (if (if buf i = '\n' then system__text_io__use_cr_lf_for_new_line s
                  else (false, s)).1
              then write_console fuel '\r'
                (if buf i = '\n' then system__text_io__use_cr_lf_for_new_line s
                  else (false, s)).2
              else some (if buf i = '\n' then system__text_io__use_cr_lf_for_new_line s
                  else (false, s)).2) with
      | none => none
      | some s1 =>
        match write_console fuel (buf i) s1 with
        | none => none
        | some s2 => write_loop fuel buf k (i + 1) s2 := rfl

theorem write_loop_ok (fuel : Nat) (buf : Nat → Char) :
    ∀ (k i : Nat) (s : Console), s.tx_busy < fuel → s.tx_delay < fuel →
      ∃ s', write_loop fuel buf k i s = some s' ∧
        sent s' = sent s ++ with_cr s.cr_lf ((List.range k).map (fun j => buf (i + j))) ∧
        s'.initialized = s.initialized ∧ s'.rx = s.rx := by
  intro k
  induction k with
  | zero =>
    intro i s _ _
    exact ⟨s, rfl, by simp [with_cr], rfl, rfl⟩
  | succ k ih =>
    intro i s hb hd
    rw [bytes_shift_succ, with_cr_cons, write_loop_succ]
    obtain ⟨q1, q2, q3, q4, q5, q6⟩ := cr_lf_query_snd s
    by_cases hc : buf i = '\n'
    · cases hcr : s.cr_lf
      · -- a line-feed, translation off
        obtain ⟨s1, h1, h2, h3, h4, h5, h6, h7⟩ :=
          write_console_ok (buf i) fuel (system__text_io__use_cr_lf_for_new_line s).2
            (by rw [q3]; exact hb)
        obtain ⟨s2, g1, g2, g3, g4⟩ := ih (i + 1) s1
          (by rw [h5, q4]; exact hd) (by rw [h4, q4]; exact hd)
        refine ⟨s2, ?_, ?_, ?_, ?_⟩
        · simp only [if_pos hc, cr_lf_query_fst, hcr, Bool.false_eq_true, if_false, h1, g1]
        · rw [g2, h2, h3, q1, q2, hcr]
          simp
        · rw [g3, h6, q5]
        · rw [g4, h7, q6]
      · -- a line-feed, translation on: the carriage-return goes first
        obtain ⟨s0, e1, e2, e3, e4, e5, e6, e7⟩ :=
          write_console_ok '\r' fuel (system__text_io__use_cr_lf_for_new_line s).2
            (by rw [q3]; exact hb)
        obtain ⟨s1, h1, h2, h3, h4, h5, h6, h7⟩ :=
          write_console_ok (buf i) fuel s0 (by rw [e5, q4]; exact hd)
        obtain ⟨s2, g1, g2, g3, g4⟩ := ih (i + 1) s1
          (by rw [h5, e4, q4]; exact hd) (by rw [h4, e4, q4]; exact hd)
        refine ⟨s2, ?_, ?_, ?_, ?_⟩
        · simp only [if_pos hc, cr_lf_query_fst, hcr, if_true, e1, h1, g1]
        · rw [g2, h2, e2, h3, e3, q1, q2, hcr]
          simp [hc]
        · rw [g3, h6, e6, q5]
        · rw [g4, h7, e7, q6]
    · obtain ⟨s1, h1, h2, h3, h4, h5, h6, h7⟩ := write_console_ok (buf i) fuel s hb
      obtain ⟨s2, g1, g2, g3, g4⟩ := ih (i + 1) s1
        (by rw [h5]; exact hd) (by rw [h4]; exact hd)
      refine ⟨s2, ?_, ?_, ?_, ?_⟩
      · simp only [if_neg hc, Bool.false_eq_true, if_false, h1, g1]
      · rw [g2, h2, h3]
        simp [hc]
      · rw [g3, h6]
      · rw [g4, h7]

theorem with_cr_off (cs : List Char) : with_cr false cs = cs := by
  induction cs with
  | nil => rfl
  | cons c cs ih => rw [with_cr_cons, ih]; simp

theorem with_cr_on_length (cs : List Char) :
    (with_cr true cs).length = cs.length + cs.count '\n' := by
  induction cs with
  | nil => rfl
  | cons c cs ih =>
    rw [with_cr_cons, List.length_append, ih]
    by_cases hc : c = '\n'
    · subst hc
      simp
      omega
    · have hne : ¬ ('\n' = c) := fun h => hc h.symm
      simp [hc, List.count_cons, hne]
      omega

theorem bytes_length (buf : Nat → Char) (n : Nat) : (bytes buf n).length = n := by
  simp [bytes]

/-- C9. For every buffer and every `nbytes`, once each busy-wait is allowed enough
polls `_write` returns `nbytes`, and the characters it hands to `system__text_io__put`
are exactly the first `nbytes` bytes of the buffer in order, with a carriage-return
immediately before each line-feed when the service reports CR/LF translation and with
nothing added when it does not; so the call makes `nbytes` transactions plus one per
line-feed with translation on, and `nbytes` transactions with translation off.  (A
negative `nbytes` counts as no byte at all.) -/
theorem write_returns_nbytes_and_sends_translated (s : Console) (fd : Int)
    (buf : Nat → Char) (nbytes : Int) :
    ∃ fuel0 : Nat, ∀ fuel : Nat, fuel0 ≤ fuel →
      ∃ s', _write fuel s fd buf nbytes = some (nbytes, s') ∧
        sent s' = sent s ++ with_cr s.cr_lf (bytes buf nbytes.toNat) ∧
        (s.cr_lf = true →
          (sent s').length
            = (sent s).length + (nbytes.toNat + (bytes buf nbytes.toNat).count '\n')) ∧
        (s.cr_lf = false →
          sent s' = sent s ++ bytes buf nbytes.toNat ∧
          (sent s').length = (sent s).length + nbytes.toNat) := by
  refine ⟨max s.tx_busy s.tx_delay + 1, fun fuel hfuel => ?_⟩
  have hb : s.tx_busy < fuel := by
    have := le_max_left s.tx_busy s.tx_delay
    omega
  have hd : s.tx_delay < fuel := by
    have := le_max_right s.tx_busy s.tx_delay
    omega
  have key : ∀ t : Console, t.tx_busy = s.tx_busy → t.tx_delay = s.tx_delay →
      t.cr_lf = s.cr_lf → sent t = sent s →
      ∃ s', write_loop fuel buf nbytes.toNat 0 t = some s' ∧
        sent s' = sent s ++ with_cr s.cr_lf (bytes buf nbytes.toNat) := by
    intro t t1 t2 t3 t4
    obtain ⟨s', h1, h2, _, _⟩ := write_loop_ok fuel buf nbytes.toNat 0 t
      (by rw [t1]; exact hb) (by rw [t2]; exact hd)
    refine ⟨s', h1, ?_⟩
    rw [h2, t3, t4]
    simp [bytes]
  have hloop : ∃ s', _write fuel s fd buf nbytes = some (nbytes, s') ∧
      sent s' = sent s ++ with_cr s.cr_lf (bytes buf nbytes.toNat) := by
    cases hi : s.initialized
    · obtain ⟨s', h1, h2⟩ := key ( system__text_io__initialize s) rfl rfl rfl
        (by simp [sent, system__text_io__initialize, List.filterMap_append])
      exact ⟨s', by simp [_write, hi, h1], h2⟩
    · obtain ⟨s', h1, h2⟩ := key s rfl rfl rfl rfl
      exact ⟨s', by simp [_write, hi, h1], h2⟩
  obtain ⟨s', h1, h2⟩ := hloop
  refine ⟨s', h1, h2, fun hon => ?_, fun hoff => ?_⟩
  · rw [h2, hon, List.length_append, with_cr_on_length, bytes_length]
  · rw [h2, hoff, with_cr_off, List.length_append, bytes_length]
    exact ⟨rfl, rfl⟩

theorem write_returns_nbytes_and_sends_translated_witness :
    (∃ fuel0 : Nat, ∀ fuel : Nat, fuel0 ≤ fuel →
      ∃ s', _write fuel ⟨false, true, 2, 1, 0, 0, [], []⟩ 1 (buffer_of ['A', '\n', 'B']) 3
          = some (3, s') ∧
        sent s' = ['A', '\r', '\n', 'B'] ∧ (sent s').length = 3 + 1) ∧
    (∃ fuel0 : Nat, ∀ fuel : Nat, fuel0 ≤ fuel →
      ∃ s', _write fuel ⟨false, false, 2, 1, 0, 0, [], []⟩ 1 (buffer_of ['A', '\n', 'B']) 3
          = some (3, s') ∧
        sent s' = ['A', '\n', 'B'] ∧ (sent s').length = 3) :=
  ⟨(write_returns_nbytes_and_sends_translated ⟨false, true, 2, 1, 0, 0, [], []⟩ 1
      (buffer_of ['A', '\n', 'B']) 3).imp fun _ h fuel hf =>
        (h fuel hf).imp fun _ hr => ⟨hr.1, hr.2.1, hr.2.2.1 rfl⟩,
   (write_returns_nbytes_and_sends_translated ⟨false, false, 2, 1, 0, 0, [], []⟩ 1
      (buffer_of ['A', '\n', 'B']) 3).imp fun _ h fuel hf =>
        (h fuel hf).imp fun _ hr => ⟨hr.1, (hr.2.2.2 rfl).1, (hr.2.2.2 rfl).2⟩⟩

/-- The bytes `A, LF, B` give the transactions `A, CR, LF, B` with CR/LF translation
on and `A, LF, B` with translation off; `_write` returns 3 in both cases. -/
theorem write_example_crlf :
    (_write 4 ⟨false, true, 2, 1, 0, 0, [], []⟩ 1 (buffer_of ['A', '\n', 'B']) 3).map
        (fun r => (r.1, sent r.2)) = some (3, ['A', '\r', '\n', 'B']) ∧
    (_write 4 ⟨false, false, 2, 1, 0, 0, [], []⟩ 1 (buffer_of ['A', '\n', 'B']) 3).map
        (fun r => (r.1, sent r.2)) = some (3, ['A', '\n', 'B']) := by
  decide

/-! ## Theorems: console read -/

theorem rx_ready_zero (s : Console) (c : Char) (rest : List Char)
    (hrx : s.rx = c :: rest) (h : s.rx_busy = 0) :
    system__text_io__is_rx_ready s
      = (true, { s with calls := s.calls ++ [Call.rx_ready true] }) := by
  simp [system__text_io__is_rx_ready, hrx, h]

theorem rx_ready_succ (s : Console) (c : Char) (rest : List Char) (k : Nat)
    (hrx : s.rx = c :: rest) (h : s.rx_busy = k + 1) :
    system__text_io__is_rx_ready s
      = (false, { s with rx_busy := k, calls := s.calls ++ [Call.rx_ready false] }) := by
  simp [system__text_io__is_rx_ready, hrx, h]

theorem read_console_ok (c : Char) (rest : List Char) :
    ∀ (fuel : Nat) (s : Console), s.rx = c :: rest → s.rx_busy < fuel →
      ∃ s', read_console fuel s = some (c, s') ∧ s'.rx = rest ∧
        s'.cr_lf = s.cr_lf ∧ s'.rx_delay = s.rx_delay ∧ s'.rx_busy = s.rx_delay := by
  intro fuel
  induction fuel with
  | zero => intro s _ h; omega
  | succ fuel ih =>
    intro s hrx h
    rcases hb : s.rx_busy with _ | k
    · refine ⟨(system__text_io__get { s with calls := s.calls ++ [Call.rx_ready true] }).2,
        ?_, ?_, ?_, ?_, ?_⟩
      · simp [read_console, rx_ready_zero s c rest hrx hb, system__text_io__get, hrx]
      all_goals simp [system__text_io__get, hrx]
    · have hlt : ({ s with rx_busy := k, calls := s.calls ++ [Call.rx_ready false] }
          : Console).rx_busy < fuel := by simp only; omega
      obtain ⟨s', h1, h2, h3, h4, h5⟩ :=
        ih { s with rx_busy := k, calls := s.calls ++ [Call.rx_ready false] } hrx hlt
      refine ⟨s', ?_, h2, h3, h4, h5⟩
      simp [read_console, rx_ready_succ s c rest k hrx hb, h1]

theorem bytes_update_succ (buf : Nat → Char) (i : Nat) (c : Char) :
    bytes (Function.update buf i c) (i + 1) = bytes buf i ++ [c] := by
  simp only [bytes, List.range_succ, List.map_append, List.map_cons, List.map_nil,
    Function.update_same]
  congr 1
  apply List.map_congr_left
  intro j hj
  have : j ≠ i := by
    have := List.mem_range.mp hj
    omega
  simp [Function.update_noteq this]

theorem line_cut_initial : ∀ (n : Nat) (cs : List Char), line_cut n cs <+: cs := by
  intro n cs
  induction cs generalizing n with
  | nil => cases n <;> simp [line_cut]
  | cons c cs ih =>
    cases n with
    | zero => simp [line_cut]
    | succ n =>
      by_cases hc : c = '\n'
      · simp [line_cut, hc]
      · simp only [line_cut, hc, if_false]
        exact (List.prefix_cons_inj c).mpr (ih n)

theorem line_cut_length_le : ∀ (n : Nat) (cs : List Char), (line_cut n cs).length ≤ n := by
  intro n cs
  induction cs generalizing n with
  | nil => cases n <;> simp [line_cut]
  | cons c cs ih =>
    cases n with
    | zero => simp [line_cut]
    | succ n =>
      by_cases hc : c = '\n'
      · simp [line_cut, hc]
      · simp only [line_cut, hc, if_false, List.length_cons]
        have := ih n
        omega

theorem lf_only_last_cons (c : Char) (cs : List Char) (hne : cs ≠ []) :
    lf_only_last (c :: cs) ↔ c ≠ '\n' ∧ lf_only_last cs := by
  unfold lf_only_last
  obtain ⟨d, ds, rfl⟩ := List.exists_cons_of_ne_nil hne
  simp only [List.dropLast_cons₂, List.mem_cons, not_or]
  constructor
  · rintro ⟨h1, h2⟩
    exact ⟨fun h => h1 h.symm, h2⟩
  · rintro ⟨h1, h2⟩
    exact ⟨fun h => h1 h.symm, h2⟩

theorem line_cut_lf_only_last :
    ∀ (n : Nat) (cs : List Char), lf_only_last (line_cut n cs) := by
  intro n cs
  induction cs generalizing n with
  | nil => cases n <;> simp [line_cut, lf_only_last]
  | cons c cs ih =>
    cases n with
    | zero => simp [line_cut, lf_only_last]
    | succ n =>
      by_cases hc : c = '\n'
      · simp [line_cut, hc, lf_only_last]
      · simp only [line_cut, hc, if_false]
        by_cases hnil : line_cut n cs = []
        · rw [hnil]; simp [lf_only_last]
        · exact (lf_only_last_cons c _ hnil).mpr ⟨hc, ih n⟩

theorem line_cut_longest :
    ∀ (n : Nat) (cs q : List Char), q <+: cs → q.length ≤ n → lf_only_last q →
      q.length ≤ (line_cut n cs).length := by
  intro n cs
  induction cs generalizing n with
  | nil =>
    intro q hq _ _
    have : q = [] := List.prefix_nil.mp hq
    simp [this]
  | cons c cs ih =>
    intro q hq hlen hlf
    cases q with
    | nil => simp
    | cons d q =>
      have hd : d = c ∧ q <+: cs := by
        have := List.cons_prefix_cons.mp hq
        exact this
      obtain ⟨rfl, hq'⟩ := hd
      cases n with
      | zero => simp at hlen
      | succ n =>
        simp only [List.length_cons, Nat.add_le_add_iff_right] at hlen
        by_cases hq0 : q = []
        · subst hq0
          by_cases hc : d = '\n'
          · simp [line_cut, hc]
          · simp [line_cut, hc]
        · have := (lf_only_last_cons d q hq0).mp hlf
          simp only [line_cut, this.1, if_false, List.length_cons,
            Nat.add_le_add_iff_right]
          exact ih n q hq' hlen this.2

theorem read_query_facts (c : Char) (s1 : Console) :
    (if c = '\r' then system__text_io__use_cr_lf_for_new_line s1 else (false, s1)).1
        = (decide (c = '\r') && s1.cr_lf) ∧
    (if c = '\r' then system__text_io__use_cr_lf_for_new_line s1 else (false, s1)).2.rx
        = s1.rx ∧
    (if c = '\r' then system__text_io__use_cr_lf_for_new_line s1 else (false, s1)).2.cr_lf
        = s1.cr_lf ∧
    (if c = '\r' then system__text_io__use_cr_lf_for_new_line s1 else (false, s1)).2.rx_busy
        = s1.rx_busy ∧
    (if c = '\r' then system__text_io__use_cr_lf_for_new_line s1 else (false, s1)).2.rx_delay
        = s1.rx_delay := by
  by_cases hc : c = '\r'
  · rw [if_pos hc]
    refine ⟨?_, rfl, rfl, rfl, rfl⟩
    simp [hc, cr_lf_query_fst]
  · rw [if_neg hc]
    refine ⟨?_, rfl, rfl, rfl, rfl⟩
    simp [hc]

theorem read_loop_succ (fuel : Nat) (count : Int) (k i : Nat) (buf : Nat → Char)
    (s : Console) :
    read_loop fuel count (k + 1) i buf s =
      if (i : Int) < count then
        match read_console fuel s with
        | none => none
        | some (c, s1) =>
          if (if c = '\r' then system__text_io__use_cr_lf_for_new_line s1 else (false, s1)).1
          then read_loop fuel count k i buf
            (if c = '\r' then system__text_io__use_cr_lf_for_new_line s1 else (false, s1)).2
          else
            if c = '\n' then
              some (i + 1, Function.update buf i c,
                (if c = '\r' then system__text_io__use_cr_lf_for_new_line s1
                  else (false, s1)).2)
            else read_loop fuel count k (i + 1) (Function.update buf i c)
              (if c = '\r' then system__text_io__use_cr_lf_for_new_line s1 else (false, s1)).2
      else some (i, buf, s) := rfl

theorem accepted_cons_drop (c : Char) (rest : List Char) (hc : c = '\r') :
    accepted true (c :: rest) = accepted true rest := by
  simp [accepted, hc]

theorem accepted_cons_keep (cr_lf : Bool) (c : Char) (rest : List Char)
    (h : (decide (c = '\r') && cr_lf) = false) :
    accepted cr_lf (c :: rest) = c :: accepted cr_lf rest := by
  cases cr_lf
  · simp [accepted]
  · have hc : c ≠ '\r' := by simpa using h
    simp [accepted, hc]

theorem line_cut_succ_cons (n : Nat) (c : Char) (cs : List Char) :
    line_cut (n + 1) (c :: cs) = if c = '\n' then [c] else c :: line_cut n cs := rfl

theorem read_loop_ok (fuel : Nat) (count : Int) :
    ∀ (rx : List Char) (k i : Nat) (buf : Nat → Char) (s : Console),
      s.rx = rx → s.rx_busy < fuel → s.rx_delay < fuel → rx.length < k →
      ('\n' ∈ accepted s.cr_lf rx ∨ count.toNat - i ≤ (accepted s.cr_lf rx).length) →
      ∃ r, read_loop fuel count k i buf s = some r ∧
        r.1 = i + (line_cut (count.toNat - i) (accepted s.cr_lf rx)).length ∧
        bytes r.2.1 r.1
          = bytes buf i ++ line_cut (count.toNat - i) (accepted s.cr_lf rx) ∧
        (∀ j, r.1 ≤ j → r.2.1 j = buf j) := by
  intro rx
  induction rx with
  | nil =>
    intro k i buf s hrx hb hd hk hlive
    obtain ⟨k, rfl⟩ : ∃ m, k = m + 1 := ⟨k - 1, by omega⟩
    have hacc : accepted s.cr_lf [] = [] := by cases s.cr_lf <;> rfl
    rw [hacc] at hlive ⊢
    have hn : count.toNat - i = 0 := by simpa using hlive
    have hcond : ¬ (i : Int) < count := by omega
    refine ⟨(i, buf, s), ?_, ?_, ?_, ?_⟩
    · rw [read_loop_succ, if_neg hcond]
    · simp [hn, line_cut]
    · simp [hn, line_cut]
    · intro j _; rfl
  | cons c rest ih =>
    intro k i buf s hrx hb hd hk hlive
    obtain ⟨k, rfl⟩ : ∃ m, k = m + 1 := ⟨k - 1, by omega⟩
    have hk' : rest.length < k := by
      simp only [List.length_cons] at hk
      omega
    by_cases hcond : (i : Int) < count
    · obtain ⟨s1, h1, h2, h3, h4, h5⟩ := read_console_ok c rest fuel s hrx hb
      obtain ⟨q1, q2, q3, q4, q5⟩ := read_query_facts c s1
      obtain ⟨n, hn⟩ : ∃ n, count.toNat - i = n + 1 := ⟨count.toNat - i - 1, by omega⟩
      have hn' : count.toNat - (i + 1) = n := by omega
      rw [read_loop_succ, if_pos hcond, h1]
      simp only
      cases hq : (decide (c = '\r') && s.cr_lf)
      · -- the character is stored
        have hq' : (if c = '\r' then system__text_io__use_cr_lf_for_new_line s1
            else (false, s1)).1 = false := by rw [q1, h3]; exact hq
        rw [hq', accepted_cons_keep s.cr_lf c rest hq, hn, line_cut_succ_cons]
        simp only [Bool.false_eq_true, if_false]
        by_cases hlf : c = '\n'
        · simp only [if_pos hlf]
          refine ⟨_, rfl, ?_, ?_, ?_⟩
          · simp
          · simp only [bytes_update_succ]
          · intro j hj
            have : j ≠ i := by simp only at hj; omega
            simp [Function.update_noteq this]
        · simp only [if_neg hlf]
          have hlive' : '\n' ∈ accepted s.cr_lf rest ∨
              count.toNat - (i + 1) ≤ (accepted s.cr_lf rest).length := by
            rw [accepted_cons_keep s.cr_lf c rest hq, hn] at hlive
            rcases hlive with hl | hl
            · left
              simp only [List.mem_cons] at hl
              rcases hl with hl | hl
              · exact absurd hl.symm hlf
              · exact hl
            · right
              simp only [List.length_cons] at hl
              omega
          obtain ⟨r, g1, g2, g3, g4⟩ := ih k (i + 1) (Function.update buf i c)
            (if c = '\r' then system__text_io__use_cr_lf_for_new_line s1 else (false, s1)).2
            (by rw [q2, h2]) (by rw [q4, h5]; exact hd) (by rw [q5, h4]; exact hd) hk'
            (by rw [q3, h3]; exact hlive')
          rw [q3, h3, hn'] at g2 g3
          refine ⟨r, g1, ?_, ?_, ?_⟩
          · rw [g2]; simp only [List.length_cons]; omega
          · rw [g3, bytes_update_succ]; simp
          · intro j hj
            have hji : j ≠ i := by omega
            rw [g4 j hj, Function.update_noteq hji]
      · -- a carriage-return under translation is discarded
        have hq' : (if c = '\r' then system__text_io__use_cr_lf_for_new_line s1
            else (false, s1)).1 = true := by rw [q1, h3]; exact hq
        have hc : c = '\r' := by
          have := (Bool.and_eq_true _ _).mp hq
          simpa using this.1
        have hcr : s.cr_lf = true := ((Bool.and_eq_true _ _).mp hq).2
        rw [hq']
        simp only [if_true]
        rw [hcr, accepted_cons_drop c rest hc] at hlive ⊢
        obtain ⟨r, g1, g2, g3, g4⟩ := ih k i buf
          (if c = '\r' then system__text_io__use_cr_lf_for_new_line s1 else (false, s1)).2
          (by rw [q2, h2]) (by rw [q4, h5]; exact hd) (by rw [q5, h4]; exact hd) hk'
          (by rw [q3, h3, hcr]; exact hlive)
        rw [q3, h3, hcr] at g2 g3
        exact ⟨r, g1, g2, g3, g4⟩
    · have hn : count.toNat - i = 0 := by omega
      refine ⟨(i, buf, s), ?_, ?_, ?_, ?_⟩
      · rw [read_loop_succ, if_neg hcond]
      · simp [hn, line_cut]
      · simp [hn, line_cut]
      · intro j _; rfl

/-- C10. Line-oriented read with a hard cap.  Provided the device delivers enough for the
call to return (a line-feed, or `max_count` characters that are not discarded), then
once the busy-waits and the loop are allowed enough steps `_read` returns, and the
bytes it stores (the buffer from index 0 up to the returned value, the rest of the
buffer being untouched) are the longest prefix of the accepted characters that has at
most `max_count` characters and holds no line-feed except possibly as its last
character; the returned value is the length of that prefix, and never exceeds a
non-negative `max_count`.  (A negative `max_count` counts as 0: nothing is stored and
0 is returned.) -/
theorem read_line_with_cap (s : Console) (fd : Int) (buf : Nat → Char) (count : Int)
    (hlive : '\n' ∈ accepted s.cr_lf s.rx ∨
      count.toNat ≤ (accepted s.cr_lf s.rx).length) :
    ∃ fuel0 : Nat, ∀ fuel : Nat, fuel0 ≤ fuel →
      ∃ r, _read fuel s fd buf count = some r ∧
        bytes r.2.1 r.1 = line_cut count.toNat (accepted s.cr_lf s.rx) ∧
        (∀ j, r.1 ≤ j → r.2.1 j = buf j) ∧
        bytes r.2.1 r.1 <+: accepted s.cr_lf s.rx ∧
        (bytes r.2.1 r.1).length ≤ count.toNat ∧
        lf_only_last (bytes r.2.1 r.1) ∧
        (∀ q : List Char, q <+: accepted s.cr_lf s.rx → q.length ≤ count.toNat →
          lf_only_last q → q.length ≤ (bytes r.2.1 r.1).length) ∧
        r.1 = (line_cut count.toNat (accepted s.cr_lf s.rx)).length ∧
        (0 ≤ count → (r.1 : Int) ≤ count) := by
  refine ⟨max (max s.rx_busy s.rx_delay) s.rx.length + 1, fun fuel hfuel => ?_⟩
  have hb : s.rx_busy < fuel := by
    have := le_max_left s.rx_busy s.rx_delay
    have := le_max_left (max s.rx_busy s.rx_delay) s.rx.length
    omega
  have hd : s.rx_delay < fuel := by
    have := le_max_right s.rx_busy s.rx_delay
    have := le_max_left (max s.rx_busy s.rx_delay) s.rx.length
    omega
  have hk : s.rx.length < fuel := by
    have := le_max_right (max s.rx_busy s.rx_delay) s.rx.length
    omega
  have key : ∀ t : Console, t.rx = s.rx → t.rx_busy = s.rx_busy → t.rx_delay = s.rx_delay →
      t.cr_lf = s.cr_lf →
      ∃ r, read_loop fuel count fuel 0 buf t = some r ∧
        r.1 = (line_cut count.toNat (accepted s.cr_lf s.rx)).length ∧
        bytes r.2.1 r.1 = line_cut count.toNat (accepted s.cr_lf s.rx) ∧
        (∀ j, r.1 ≤ j → r.2.1 j = buf j) := by
    intro t t1 t2 t3 t4
    obtain ⟨r, g1, g2, g3, g4⟩ := read_loop_ok fuel count s.rx fuel 0 buf t t1
      (by rw [t2]; exact hb) (by rw [t3]; exact hd) hk
      (by rw [t4, Nat.sub_zero]; exact hlive)
    rw [t4, Nat.sub_zero] at g2 g3
    refine ⟨r, g1, by simpa using g2, ?_, g4⟩
    rw [g3]
    simp [bytes]
  have hread : ∃ r, _read fuel s fd buf count = some r ∧
      r.1 = (line_cut count.toNat (accepted s.cr_lf s.rx)).length ∧
      bytes r.2.1 r.1 = line_cut count.toNat (accepted s.cr_lf s.rx) ∧
      (∀ j, r.1 ≤ j → r.2.1 j = buf j) := by
    cases hi : s.initialized
    · obtain ⟨r, g⟩ := key ( system__text_io__initialize s) rfl rfl rfl rfl
      exact ⟨r, by simpa [_read, hi] using g.1, g.2⟩
    · obtain ⟨r, g⟩ := key s rfl rfl rfl rfl
      exact ⟨r, by simpa [_read, hi] using g.1, g.2⟩
  obtain ⟨r, g1, g2, g3, g4⟩ := hread
  have hlen := line_cut_length_le count.toNat (accepted s.cr_lf s.rx)
  refine ⟨r, g1, g3, g4, ?_, ?_, ?_, ?_, g2, ?_⟩
  · rw [g3]; exact line_cut_initial _ _
  · rw [g3]; exact hlen
  · rw [g3]; exact line_cut_lf_only_last _ _
  · intro q h1 h2 h3
    rw [g3]
    exact line_cut_longest _ _ q h1 h2 h3
  · intro h0
    rw [g2]
    omega

theorem read_line_with_cap_witness :
    ('\n' ∈ accepted (⟨false, true, 0, 0, 2, 1, ['A', 'B', 'C', 'D'], []⟩ : Console).cr_lf
        (⟨false, true, 0, 0, 2, 1, ['A', 'B', 'C', 'D'], []⟩ : Console).rx ∨
      (2 : Int).toNat ≤ (accepted (⟨false, true, 0, 0, 2, 1, ['A', 'B', 'C', 'D'], []⟩
        : Console).cr_lf (⟨false, true, 0, 0, 2, 1, ['A', 'B', 'C', 'D'], []⟩
        : Console).rx).length) ∧
    ∃ fuel0 : Nat, ∀ fuel : Nat, fuel0 ≤ fuel →
      ∃ r, _read fuel ⟨false, true, 0, 0, 2, 1, ['A', 'B', 'C', 'D'], []⟩ 0
          (buffer_of []) 2 = some r ∧
        bytes r.2.1 r.1 = ['A', 'B'] ∧ r.1 = 2 :=
  have hlive : '\n' ∈ accepted (⟨false, true, 0, 0, 2, 1, ['A', 'B', 'C', 'D'], []⟩
        : Console).cr_lf (⟨false, true, 0, 0, 2, 1, ['A', 'B', 'C', 'D'], []⟩ : Console).rx ∨
      (2 : Int).toNat ≤ (accepted (⟨false, true, 0, 0, 2, 1, ['A', 'B', 'C', 'D'], []⟩
        : Console).cr_lf (⟨false, true, 0, 0, 2, 1, ['A', 'B', 'C', 'D'], []⟩
        : Console).rx).length := Or.inr (by decide)
  ⟨hlive,
   (read_line_with_cap ⟨false, true, 0, 0, 2, 1, ['A', 'B', 'C', 'D'], []⟩ 0
      (buffer_of []) 2 hlive).imp fun _ h fuel hf =>
        (h fuel hf).imp fun _ hr => ⟨hr.1, hr.2.1, hr.2.2.2.2.2.2.2.1⟩⟩

/-- The device stream `A, B, C, D` read with `max_count = 2` gives `AB` and the value 2,
and leaves `C, D` with the device. -/
theorem read_example_cap :
    (_read 5 ⟨false, true, 0, 0, 2, 1, ['A', 'B', 'C', 'D'], []⟩ 0 (buffer_of []) 2).map
        (fun r => (r.1, bytes r.2.1 r.1, r.2.2.rx)) = some (2, ['A', 'B'], ['C', 'D']) := by
  decide

/-- When the device runs out of characters before a line-feed or `max_count` accepted
characters, `_read` never returns: the device `A` read with `max_count = 2` is still
polling after any number of steps. -/
theorem read_blocks_example :
    ∀ fuel : Nat,
      _read fuel ⟨true, false, 0, 0, 0, 0, ['A'], []⟩ 0 (buffer_of []) 2 = none := by
  intro fuel
  have hempty : ∀ (n : Nat) (t : Console), t.rx = [] → read_console n t = none := by
    intro n
    induction n with
    | zero => intro t _; rfl
    | succ n ih =>
      intro t ht
      simp only [read_console, system__text_io__is_rx_ready, ht]
      exact ih _ rfl
  cases fuel with
  | zero => rfl
  | succ fuel =>
    cases fuel with
    | zero => rfl
    | succ fuel =>
      simp only [_read, read_loop_succ]
      simp [read_console, system__text_io__is_rx_ready, system__text_io__get, hempty]

/-! ## Theorems: traces of the console adapter -/

theorem quiet_refl (s : Console) : quiet s s :=
  ⟨rfl, rfl, [], by simp, by simp⟩

theorem quiet_trans {s t u : Console} (h1 : quiet s t) (h2 : quiet t u) : quiet s u := by
  obtain ⟨a1, a2, es, a3, a4⟩ := h1
  obtain ⟨b1, b2, fs, b3, b4⟩ := h2
  refine ⟨b1.trans a1, b2.trans a2, es ++ fs, ?_, ?_⟩
  · rw [b3, a3, List.append_assoc]
  · simp [a4, b4]

theorem quiet_tx_ready (s : Console) : quiet s (system__text_io__is_tx_ready s).2 := by
  unfold system__text_io__is_tx_ready
  split
  · exact ⟨rfl, rfl, [Call.tx_ready true], rfl, by simp⟩
  · exact ⟨rfl, rfl, [Call.tx_ready false], rfl, by simp⟩

theorem quiet_rx_ready (s : Console) : quiet s (system__text_io__is_rx_ready s).2 := by
  unfold system__text_io__is_rx_ready
  split
  · exact ⟨rfl, rfl, [Call.rx_ready false], rfl, by simp⟩
  · exact ⟨rfl, rfl, [Call.rx_ready true], rfl, by simp⟩
  · exact ⟨rfl, rfl, [Call.rx_ready false], rfl, by simp⟩

theorem quiet_put (c : Char) (s : Console) : quiet s (system__text_io__put c s) :=
  ⟨rfl, rfl, [Call.put c], rfl, by simp⟩

theorem quiet_get (s : Console) : quiet s (system__text_io__get s).2 := by
  unfold system__text_io__get
  split
  · exact ⟨rfl, rfl, [Call.get '\x00'], rfl, by simp⟩
  · exact ⟨rfl, rfl, [Call.get _], rfl, by simp⟩

theorem quiet_cr_lf_query (s : Console) :
    quiet s (system__text_io__use_cr_lf_for_new_line s).2 :=
  ⟨rfl, rfl, [Call.cr_lf s.cr_lf], rfl, by simp⟩

theorem write_console_quiet :
    ∀ (fuel : Nat) (c : Char) (s s' : Console),
      write_console fuel c s = some s' → quiet s s' := by
  intro fuel
  induction fuel with
  | zero => intro c s s' h; simp [write_console] at h
  | succ fuel ih =>
    intro c s s' h
    simp only [write_console] at h
    split at h
    · simp only [Option.some.injEq] at h
      subst h
      exact quiet_trans (quiet_tx_ready s) (quiet_put c _)
    · exact quiet_trans (quiet_tx_ready s) (ih c _ s' h)

theorem write_loop_quiet (fuel : Nat) (buf : Nat → Char) :
    ∀ (k i : Nat) (s s' : Console), write_loop fuel buf k i s = some s' → quiet s s' := by
  intro k
  induction k with
  | zero =>
    intro i s s' h
    simp only [write_loop, Option.some.injEq] at h
    subst h
    exact quiet_refl s
  | succ k ih =>
    intro i s s' h
    rw [write_loop_succ] at h
    have hq : quiet s (if buf i = '\n' then system__text_io__use_cr_lf_for_new_line s
        else (false, s)).2 := by
      split
      · exact quiet_cr_lf_query s
      · exact quiet_refl s
    generalize (if buf i = '\n' then system__text_io__use_cr_lf_for_new_line s
        else (false, s)) = q at h hq
    cases h1 : (if q.1 = true then write_console fuel '\r' q.2 else some q.2) with
    | none => rw [h1] at h; simp at h
    | some s1 =>
      rw [h1] at h
      simp only at h
      have hq1 : quiet s s1 := by
        by_cases hq1 : q.1 = true
        · rw [if_pos hq1] at h1
          exact quiet_trans hq (write_console_quiet fuel '\r' _ s1 h1)
        · rw [if_neg hq1] at h1
          simp only [Option.some.injEq] at h1
          subst h1
          exact hq
      cases h2 : write_console fuel (buf i) s1 with
      | none => rw [h2] at h; simp at h
      | some s2 =>
        rw [h2] at h
        simp only at h
        exact quiet_trans hq1
          (quiet_trans (write_console_quiet fuel (buf i) s1 s2 h2) (ih (i + 1) s2 s' h))

theorem got_append_calls (s : Console) (es : List Call) :
    got { s with calls := s.calls ++ es }
      = got s ++ es.filterMap (fun e => match e with | Call.get c => some c | _ => none) := by
  simp [got, List.filterMap_append]

theorem read_console_taken :
    ∀ (fuel : Nat) (s : Console) (c : Char) (s' : Console),
      read_console fuel s = some (c, s') →
        quiet s s' ∧ s.rx = c :: s'.rx ∧ got s' = got s ++ [c] := by
  intro fuel
  induction fuel with
  | zero => intro s c s' h; simp [read_console] at h
  | succ fuel ih =>
    intro s c s' h
    simp only [read_console] at h
    rcases hrx : s.rx with _ | ⟨d, rest⟩
    · have hr : system__text_io__is_rx_ready s
          = (false, { s with calls := s.calls ++ [Call.rx_ready false] }) := by
        simp [system__text_io__is_rx_ready, hrx]
      rw [hr] at h
      simp only [Bool.false_eq_true, if_false] at h
      obtain ⟨g1, g2, g3⟩ := ih _ c s' h
      simp only at g2
      rw [hrx] at g2
      exact absurd g2 (by simp)
    · rcases hb : s.rx_busy with _ | k
      · rw [rx_ready_zero s d rest hrx hb] at h
        simp only [if_true, Option.some.injEq] at h
        simp only [system__text_io__get, hrx, Prod.mk.injEq] at h
        obtain ⟨h1, h2⟩ := h
        subst h1 h2
        refine ⟨⟨rfl, rfl, [Call.rx_ready true] ++ [Call.get d], ?_, by simp⟩, rfl, ?_⟩
        · simp
        · simp [got, List.filterMap_append]
      · rw [rx_ready_succ s d rest k hrx hb] at h
        simp only [Bool.false_eq_true, if_false] at h
        obtain ⟨g1, g2, g3⟩ := ih _ c s' h
        have g0 : quiet s { s with rx_busy := k, calls := s.calls ++ [Call.rx_ready false] } :=
          ⟨rfl, rfl, [Call.rx_ready false], rfl, by simp⟩
        refine ⟨quiet_trans g0 g1, ?_, ?_⟩
        · have g2' : s.rx = c :: s'.rx := g2
          rw [hrx] at g2'
          exact g2'
        · rw [g3]
          simp [got, List.filterMap_append]

theorem accepted_nil (cr_lf : Bool) : accepted cr_lf [] = [] := by
  cases cr_lf <;> rfl

theorem read_query_quiet (c : Char) (s1 : Console) :
    quiet s1 (if c = '\r' then system__text_io__use_cr_lf_for_new_line s1 else (false, s1)).2 ∧
    got (if c = '\r' then system__text_io__use_cr_lf_for_new_line s1 else (false, s1)).2
      = got s1 := by
  by_cases hc : c = '\r'
  · rw [if_pos hc]
    refine ⟨quiet_cr_lf_query s1, ?_⟩
    simp [got, system__text_io__use_cr_lf_for_new_line, List.filterMap_append]
  · rw [if_neg hc]
    exact ⟨quiet_refl s1, rfl⟩

theorem getLast?_cons_of_ne_nil (c : Char) (l : List Char) (h : l ≠ []) :
    (c :: l).getLast? = l.getLast? := by
  obtain ⟨d, ds, rfl⟩ := List.exists_cons_of_ne_nil h
  simp

theorem read_loop_taken (fuel : Nat) (count : Int) :
    ∀ (k i : Nat) (buf : Nat → Char) (s : Console) (r : Nat × (Nat → Char) × Console),
      read_loop fuel count k i buf s = some r →
      quiet s r.2.2 ∧
      ∃ taken : List Char,
        s.rx = taken ++ r.2.2.rx ∧
        got r.2.2 = got s ++ taken ∧
        bytes r.2.1 r.1 = bytes buf i ++ accepted s.cr_lf taken ∧
        r.1 = i + (accepted s.cr_lf taken).length ∧
        taken.getLast? = (accepted s.cr_lf taken).getLast? ∧
        ((i : Int) < count → taken ≠ []) ∧
        (¬ (i : Int) < count → taken = []) := by
  intro k
  induction k with
  | zero => intro i buf s r h; simp [read_loop] at h
  | succ k ih =>
    intro i buf s r h
    rw [read_loop_succ] at h
    by_cases hcond : (i : Int) < count
    · rw [if_pos hcond] at h
      cases hrc : read_console fuel s with
      | none => rw [hrc] at h; simp at h
      | some p =>
        obtain ⟨c, s1⟩ := p
        rw [hrc] at h
        simp only at h
        obtain ⟨t1, t2, t3⟩ := read_console_taken fuel s c s1 hrc
        obtain ⟨q1, q2, q3, _, _⟩ := read_query_facts c s1
        obtain ⟨q6, q7⟩ := read_query_quiet c s1
        have hcr : s1.cr_lf = s.cr_lf := t1.2.1
        cases hq : (decide (c = '\r') && s.cr_lf)
        · -- the character is stored
          have hq' : (if c = '\r' then system__text_io__use_cr_lf_for_new_line s1
              else (false, s1)).1 = false := by rw [q1, hcr]; exact hq
          rw [hq'] at h
          simp only [Bool.false_eq_true, if_false] at h
          by_cases hlf : c = '\n'
          · rw [if_pos hlf] at h
            simp only [Option.some.injEq] at h
            subst h
            refine ⟨quiet_trans t1 q6, [c], ?_, ?_, ?_, ?_, ?_, ?_, ?_⟩
            · simp only [List.singleton_append]; rw [t2, q2]
            · simp only; rw [q7, t3]
            · rw [accepted_cons_keep s.cr_lf c [] hq, accepted_nil]
              exact bytes_update_succ buf i c
            · rw [accepted_cons_keep s.cr_lf c [] hq, accepted_nil]
              rfl
            · rw [accepted_cons_keep s.cr_lf c [] hq, accepted_nil]
            · intro _; simp
            · intro hn; exact absurd hcond hn
          · rw [if_neg hlf] at h
            obtain ⟨g0, taken, g1, g2, g3, g4, g5, g6, g7⟩ := ih _ _ _ r h
            rw [q3, hcr] at g3 g4 g5
            refine ⟨quiet_trans t1 (quiet_trans q6 g0), c :: taken, ?_, ?_, ?_, ?_, ?_, ?_, ?_⟩
            · rw [t2, ← q2, g1]; rfl
            · rw [g2, q7, t3]; simp
            · rw [g3, bytes_update_succ, accepted_cons_keep s.cr_lf c taken hq]; simp
            · rw [g4, accepted_cons_keep s.cr_lf c taken hq]
              simp only [List.length_cons]; omega
            · rw [accepted_cons_keep s.cr_lf c taken hq]
              by_cases ht : taken = []
              · subst ht; rw [accepted_nil]
              · have ha : accepted s.cr_lf taken ≠ [] := by
                  intro ha
                  rw [ha] at g5
                  obtain ⟨d, ds, rfl⟩ := List.exists_cons_of_ne_nil ht
                  cases ds <;> simp at g5
                rw [getLast?_cons_of_ne_nil c taken ht, getLast?_cons_of_ne_nil c _ ha]
                exact g5
            · intro _; simp
            · intro hn; exact absurd hcond hn
        · -- a carriage-return under translation is discarded
          have hq' : (if c = '\r' then system__text_io__use_cr_lf_for_new_line s1
              else (false, s1)).1 = true := by rw [q1, hcr]; exact hq
          have hc : c = '\r' := by
            have := (Bool.and_eq_true _ _).mp hq
            simpa using this.1
          have hon : s.cr_lf = true := ((Bool.and_eq_true _ _).mp hq).2
          rw [hq'] at h
          simp only [if_true] at h
          obtain ⟨g0, taken, g1, g2, g3, g4, g5, g6, g7⟩ := ih _ _ _ r h
          rw [q3, hcr, hon] at g3 g4 g5
          have hne : taken ≠ [] := g6 hcond
          refine ⟨quiet_trans t1 (quiet_trans q6 g0), c :: taken, ?_, ?_, ?_, ?_, ?_, ?_, ?_⟩
          · rw [t2, ← q2, g1]; rfl
          · rw [g2, q7, t3]; simp
          · rw [hon, accepted_cons_drop c taken hc]; exact g3
          · rw [hon, accepted_cons_drop c taken hc]; exact g4
          · rw [hon, accepted_cons_drop c taken hc, getLast?_cons_of_ne_nil c taken hne]
            exact g5
          · intro _; simp
          · intro hn; exact absurd hcond hn
    · rw [if_neg hcond] at h
      simp only [Option.some.injEq] at h
      subst h
      refine ⟨quiet_refl s, [], ?_, ?_, ?_, ?_, ?_, ?_, ?_⟩
      · simp
      · simp
      · simp [accepted_nil]
      · simp [accepted_nil]
      · simp [accepted_nil]
      · intro hp; exact absurd hp hcond
      · intro _; rfl

/-! ## Theorems: cursor direction and stubs -/

theorem sbrk_some_cursor (w : Nat) (s : Heap) (n : Int) (h : (_sbrk w s n).1 ≠ none) :
    (_sbrk w s n).2.heap_ptr = (((s.heap_ptr : Int) + n) % 2 ^ w).toNat := by
  by_cases hc : n ≤ ptr_diff w s.heap_end s.heap_ptr
  · rw [sbrk_ok w s n hc]
  · rw [sbrk_fail w s n (not_le.mp hc)] at h
    exact absurd rfl h

/-- C13 amended. For every allocator state of `w`-bit words with `heap_ptr <= heap_end` and
every call `_sbrk n` with `n >= 0`, the cursor after the call is greater than or equal
to the cursor before the call; a call that fails, for any signed `n`, leaves the
globals as they were; a call that succeeds sets the cursor to the old cursor plus `n`
modulo `2^w`, so a successful call with `n < 0` that does not ask for a cursor below
address 0 leaves the cursor at the old cursor plus `n`, below its old value. -/
theorem sbrk_cursor_not_decreasing (w : Nat) (s : Heap) (n : Int) (hw : words w s) :
    (0 ≤ n → s.heap_ptr ≤ s.heap_end → s.heap_ptr ≤ (_sbrk w s n).2.heap_ptr) ∧
    ((_sbrk w s n).1 = none → (_sbrk w s n).2 = s) ∧
    ((_sbrk w s n).1 ≠ none →
      ((_sbrk w s n).2.heap_ptr : Int) = ((s.heap_ptr : Int) + n) % 2 ^ w) ∧
    ((_sbrk w s n).1 ≠ none → n < 0 → 0 ≤ (s.heap_ptr : Int) + n →
      ((_sbrk w s n).2.heap_ptr : Int) = (s.heap_ptr : Int) + n ∧
      (_sbrk w s n).2.heap_ptr < s.heap_ptr) := by
  have hp0 : (0 : Int) ≤ (s.heap_ptr : Int) := Int.ofNat_nonneg _
  have hp' : (s.heap_ptr : Int) < 2 ^ w := by exact_mod_cast hw.1
  have hpos : (0 : Int) < 2 ^ w := by positivity
  refine ⟨fun h0 hpe => ?_, sbrk_none_unchanged w s n, fun hs => ?_, fun hs hneg hlow => ?_⟩
  · rcases sbrk_step w s n hw hpe (by omega) with h | ⟨_, h2, _, _⟩
    · rw [h]
    · have : (s.heap_ptr : Int) ≤ ((_sbrk w s n).2.heap_ptr : Int) := by rw [h2]; omega
      exact_mod_cast this
  · rw [sbrk_some_cursor w s n hs]
    exact Int.toNat_of_nonneg (Int.emod_nonneg _ (ne_of_gt hpos))
  · have hc : ((_sbrk w s n).2.heap_ptr : Int) = (s.heap_ptr : Int) + n := by
      rw [sbrk_some_cursor w s n hs]
      exact wrap_id w _ hlow (by omega)
    refine ⟨hc, ?_⟩
    have : ((_sbrk w s n).2.heap_ptr : Int) < (s.heap_ptr : Int) := by rw [hc]; omega
    exact_mod_cast this

theorem sbrk_cursor_not_decreasing_witness :
    words 32 ⟨100, 200⟩ ∧ (0 : Int) ≤ 40 ∧
    (⟨100, 200⟩ : Heap).heap_ptr ≤ (⟨100, 200⟩ : Heap).heap_end ∧
    _sbrk 32 ⟨100, 200⟩ 40 = (some 100, ⟨140, 200⟩) ∧
    (⟨100, 200⟩ : Heap).heap_ptr ≤ (_sbrk 32 ⟨100, 200⟩ 40).2.heap_ptr :=
  ⟨by decide, by decide, by decide, by decide,
   (sbrk_cursor_not_decreasing 32 ⟨100, 200⟩ 40 (by decide)).1 (by decide) (by decide)⟩

/-- C13 as stated fails: on 32-bit words, from the cursor 150 in the heap `[100, 200)` the
call `_sbrk (-30)` succeeds and leaves the cursor at 120, below 150; and from
`heap_ptr = 2^32 - 10`, `heap_end = 20` the call `_sbrk 20` succeeds and wraps the
cursor to 10. -/
theorem sbrk_cursor_counterexample :
    (_sbrk 32 ⟨150, 200⟩ (-30) = (some 150, ⟨120, 200⟩) ∧
      (_sbrk 32 ⟨150, 200⟩ (-30)).2.heap_ptr < (⟨150, 200⟩ : Heap).heap_ptr) ∧
    (_sbrk 32 ⟨2 ^ 32 - 10, 20⟩ 20 = (some (2 ^ 32 - 10), ⟨10, 20⟩) ∧
      (_sbrk 32 ⟨2 ^ 32 - 10, 20⟩ 20).2.heap_ptr < (⟨2 ^ 32 - 10, 20⟩ : Heap).heap_ptr) := by
  decide

/-- C14. The stubs are constant: whatever the arguments and whatever stub calls came
before, `isatty` returns 1, `_lseek` returns -1 and sets `errno` to `ESPIPE`, `_fstat`
returns -1, `_close` returns 0 and `__gnat_get_executable_load_address` returns `NULL`;
only `_lseek` changes `errno`. -/
theorem stubs_are_constant (ESPIPE errno : Int) (history : List StubCall)
    (fd offset whence : Int) (buf : Nat) :
    isatty fd = 1 ∧
    _lseek ESPIPE (stub_history ESPIPE errno history) fd offset whence = (-1, ESPIPE) ∧
    _fstat fd buf = -1 ∧
    _close fd = 0 ∧
    __gnat_get_executable_load_address = none ∧
    stub_call ESPIPE (stub_history ESPIPE errno history) (StubCall.isatty fd)
      = (StubResult.int 1, stub_history ESPIPE errno history) ∧
    stub_call ESPIPE (stub_history ESPIPE errno history) (StubCall.lseek fd offset whence)
      = (StubResult.int (-1), ESPIPE) ∧
    stub_call ESPIPE (stub_history ESPIPE errno history) (StubCall.fstat fd buf)
      = (StubResult.int (-1), stub_history ESPIPE errno history) ∧
    stub_call ESPIPE (stub_history ESPIPE errno history) (StubCall.close fd)
      = (StubResult.int 0, stub_history ESPIPE errno history) ∧
    stub_call ESPIPE (stub_history ESPIPE errno history) StubCall.load_address
      = (StubResult.pointer none, stub_history ESPIPE errno history) :=
  ⟨rfl, rfl, rfl, rfl, rfl, rfl, rfl, rfl, rfl, rfl⟩

/-- After the calls `isatty 0`, `_lseek (3, 10, 0)`, `_close 3`, with `ESPIPE = 29` and
`errno` 0 at first, `errno` is 29, and `_lseek` and `_fstat` fail as before. -/
theorem stubs_example :
    stub_history 29 0 [StubCall.isatty 0, StubCall.lseek 3 10 0, StubCall.close 3] = 29 ∧
    _lseek 29 29 5 0 2 = (-1, 29) ∧ _fstat 5 0 = -1 ∧ isatty (-7) = 1 := by
  decide

/-! ## Theorems: capability-bounded heap initialisation -/

theorem heap_init_fields (w : Nat) (crrm : Nat → Nat) (pe : Nat) (ddc : Capability)
    (heap_start heap_end : Nat) :
    (__gnat_heap_init w crrm pe ddc heap_start heap_end).1.address
        = rounded_start w crrm heap_start heap_end ∧
    (__gnat_heap_init w crrm pe ddc heap_start heap_end).1.base
        = rounded_start w crrm heap_start heap_end ∧
    (__gnat_heap_init w crrm pe ddc heap_start heap_end).1.length
        = ((((rounded_end w crrm heap_start heap_end : Nat) : Int)
            - ((rounded_start w crrm heap_start heap_end : Nat) : Int)) % 2 ^ w).toNat ∧
    (__gnat_heap_init w crrm pe ddc heap_start heap_end).1.perms
        = ddc.perms &&& word_not w pe ∧
    (__gnat_heap_init w crrm pe ddc heap_start heap_end).2
        = rounded_end w crrm heap_start heap_end :=
  ⟨rfl, rfl, rfl, rfl, rfl⟩

theorem and_align_mask (w k x : Nat) (hk : k ≤ w) (hx : x < 2 ^ w) :
    x &&& (2 ^ w - 2 ^ k) = x / 2 ^ k * 2 ^ k := by
  have hpos : 0 < 2 ^ k := Nat.two_pow_pos k
  have hle : 2 ^ k ≤ 2 ^ w := Nat.pow_le_pow_right (by decide) hk
  have h1 : 2 ^ w - 2 ^ k = 2 ^ w - ((2 ^ k - 1) + 1) := by omega
  have h2 : 2 ^ k - 1 < 2 ^ w := by omega
  rw [h1]
  apply Nat.eq_of_testBit_eq
  intro i
  rw [Nat.testBit_and, Nat.testBit_two_pow_sub_succ h2 i, Nat.testBit_two_pow_sub_one,
    ← Nat.shiftRight_eq_div_pow, ← Nat.shiftLeft_eq, Nat.testBit_shiftLeft,
    Nat.testBit_shiftRight]
  by_cases hik : k ≤ i
  · have hki : k + (i - k) = i := by omega
    rw [hki]
    by_cases hiw : i < w
    · have hnk : ¬ i < k := by omega
      simp [hik, hiw, hnk]
    · have hxi : x.testBit i = false :=
        Nat.testBit_lt_two_pow (lt_of_lt_of_le hx (Nat.pow_le_pow_right (by decide) (by omega)))
      simp [hxi]
  · have hlt : i < k := by omega
    simp [hik, hlt]

theorem word_not_align_mask (w k : Nat) (hk : k ≤ w) :
    word_not w (2 ^ w - 2 ^ k) = 2 ^ k - 1 := by
  have hpos : 0 < 2 ^ k := Nat.two_pow_pos k
  have hle : 2 ^ k ≤ 2 ^ w := Nat.pow_le_pow_right (by decide) hk
  unfold word_not
  rw [Nat.mod_eq_of_lt (by omega)]
  omega

theorem heap_init_mask_lt (w : Nat) (crrm : Nat → Nat) (heap_start heap_end : Nat) :
    heap_init_mask w crrm heap_start heap_end < 2 ^ w :=
  Nat.mod_lt _ (Nat.two_pow_pos w)

theorem rounded_end_le (w : Nat) (crrm : Nat → Nat) (heap_start heap_end : Nat) :
    rounded_end w crrm heap_start heap_end ≤ heap_end :=
  Nat.and_le_left

theorem rounded_start_ge (w k : Nat) (crrm : Nat → Nat) (heap_start heap_end : Nat)
    (hk : k ≤ w) (hmask : heap_init_mask w crrm heap_start heap_end = 2 ^ w - 2 ^ k)
    (hnowrap : heap_start + (2 ^ k - 1) < 2 ^ w) :
    heap_start ≤ rounded_start w crrm heap_start heap_end ∧
    rounded_start w crrm heap_start heap_end < heap_start + 2 ^ k := by
  have hpos : 0 < 2 ^ k := Nat.two_pow_pos k
  unfold rounded_start
  rw [hmask, word_not_align_mask w k hk, Nat.mod_eq_of_lt hnowrap,
    and_align_mask w k _ hk hnowrap]
  have h := Nat.div_add_mod (heap_start + (2 ^ k - 1)) (2 ^ k)
  have hr := Nat.mod_lt (heap_start + (2 ^ k - 1)) hpos
  rw [Nat.mul_comm] at h
  generalize (heap_start + (2 ^ k - 1)) / 2 ^ k * 2 ^ k = z at h ⊢
  generalize (heap_start + (2 ^ k - 1)) % 2 ^ k = r at h hr
  constructor <;> omega

/-- The round-up of `__gnat_heap_init` cannot wrap when the region ends below `2^w` and
the alignment `2^k` is no larger than the region's length plus one. -/
theorem no_wrap_of_alignment_le_length (w k heap_start heap_end : Nat)
    (hreg : heap_start ≤ heap_end) (hend : heap_end < 2 ^ w)
    (hal : 2 ^ k ≤ heap_end - heap_start + 1) :
    heap_start + (2 ^ k - 1) < 2 ^ w := by
  omega

/-- With an alignment no larger than the region's length plus one, an aligned address lies
in the region, so the rounded start is not above the rounded end. -/
theorem rounded_start_le_rounded_end (w k : Nat) (crrm : Nat → Nat)
    (heap_start heap_end : Nat) (hreg : heap_start ≤ heap_end) (hend : heap_end < 2 ^ w)
    (hk : k ≤ w) (hmask : heap_init_mask w crrm heap_start heap_end = 2 ^ w - 2 ^ k)
    (hal : 2 ^ k ≤ heap_end - heap_start + 1) :
    rounded_start w crrm heap_start heap_end ≤ rounded_end w crrm heap_start heap_end := by
  have hpos : 0 < 2 ^ k := Nat.two_pow_pos k
  have hnowrap := no_wrap_of_alignment_le_length w k heap_start heap_end hreg hend hal
  unfold rounded_start rounded_end
  rw [hmask, word_not_align_mask w k hk, Nat.mod_eq_of_lt hnowrap,
    and_align_mask w k _ hk hnowrap, and_align_mask w k _ hk hend]
  exact Nat.mul_le_mul_right _ (Nat.div_le_div_right (by omega))

/-- C12. Capability bounding: for every heap region `[start, end)` of `w`-bit addresses and
a mask returned for its length that is the mask `2^w - 2^k` of an alignment `2^k` no
larger than the length plus one, the bounds `__gnat_heap_init` computes in word
arithmetic, `rounded_start = (start + ~mask) & mask` and `rounded_end = end & mask`,
satisfy `start <= rounded_start <= rounded_end <= end`; the capability derived has
its address and base at `rounded_start` and the length `rounded_end - rounded_start`,
so its bounds `[base, base + length)` lie inside `[start, end)`, and the ceiling
`heap_end` is `rounded_end`. -/
theorem heap_init_bounds_inside_region (w k : Nat) (crrm : Nat → Nat) (pe : Nat)
    (ddc : Capability) (heap_start heap_end : Nat)
    (hreg : heap_start ≤ heap_end) (hend : heap_end < 2 ^ w) (hk : k ≤ w)
    (hmask : heap_init_mask w crrm heap_start heap_end = 2 ^ w - 2 ^ k)
    (hal : 2 ^ k ≤ heap_end - heap_start + 1) :
    (heap_start ≤ rounded_start w crrm heap_start heap_end ∧
      rounded_end w crrm heap_start heap_end ≤ heap_end ∧
      rounded_start w crrm heap_start heap_end ≤ rounded_end w crrm heap_start heap_end) ∧
    ((__gnat_heap_init w crrm pe ddc heap_start heap_end).1.address
        = rounded_start w crrm heap_start heap_end ∧
      (__gnat_heap_init w crrm pe ddc heap_start heap_end).1.base
        = rounded_start w crrm heap_start heap_end ∧
      (__gnat_heap_init w crrm pe ddc heap_start heap_end).1.length
        = rounded_end w crrm heap_start heap_end - rounded_start w crrm heap_start heap_end ∧
      (__gnat_heap_init w crrm pe ddc heap_start heap_end).2
        = rounded_end w crrm heap_start heap_end) ∧
    (heap_start ≤ (__gnat_heap_init w crrm pe ddc heap_start heap_end).1.base ∧
      (__gnat_heap_init w crrm pe ddc heap_start heap_end).1.base
          + (__gnat_heap_init w crrm pe ddc heap_start heap_end).1.length ≤ heap_end) := by
  have hnowrap := no_wrap_of_alignment_le_length w k heap_start heap_end hreg hend hal
  have hs := (rounded_start_ge w k crrm heap_start heap_end hk hmask hnowrap).1
  have he := rounded_end_le w crrm heap_start heap_end
  have hse := rounded_start_le_rounded_end w k crrm heap_start heap_end hreg hend hk hmask hal
  obtain ⟨f1, f2, f3, _, f5⟩ := heap_init_fields w crrm pe ddc heap_start heap_end
  have hlen : (__gnat_heap_init w crrm pe ddc heap_start heap_end).1.length
      = rounded_end w crrm heap_start heap_end
        - rounded_start w crrm heap_start heap_end := by
    rw [f3]
    have hend' : ((rounded_end w crrm heap_start heap_end : Nat) : Int) < 2 ^ w := by
      have : rounded_end w crrm heap_start heap_end < 2 ^ w := lt_of_le_of_lt he hend
      exact_mod_cast this
    have hse' : ((rounded_start w crrm heap_start heap_end : Nat) : Int)
        ≤ ((rounded_end w crrm heap_start heap_end : Nat) : Int) := by exact_mod_cast hse
    have h := wrap_id w (((rounded_end w crrm heap_start heap_end : Nat) : Int)
      - ((rounded_start w crrm heap_start heap_end : Nat) : Int)) (by omega) (by omega)
    omega
  refine ⟨⟨hs, he, hse⟩, ⟨f1, f2, hlen, f5⟩, ?_, ?_⟩
  · rw [f2]; exact hs
  · rw [f2, hlen]; omega

theorem heap_init_bounds_inside_region_witness :
    4099 ≤ 8197 ∧ 8197 < 2 ^ 64 ∧ 4 ≤ 64 ∧
    heap_init_mask 64 (fun _ => 2 ^ 64 - 16) 4099 8197 = 2 ^ 64 - 2 ^ 4 ∧
    2 ^ 4 ≤ 8197 - 4099 + 1 ∧
    ((4099 ≤ rounded_start 64 (fun _ => 2 ^ 64 - 16) 4099 8197 ∧
      rounded_end 64 (fun _ => 2 ^ 64 - 16) 4099 8197 ≤ 8197 ∧
      rounded_start 64 (fun _ => 2 ^ 64 - 16) 4099 8197
        ≤ rounded_end 64 (fun _ => 2 ^ 64 - 16) 4099 8197) ∧
     ((__gnat_heap_init 64 (fun _ => 2 ^ 64 - 16) 2 ⟨0, 0, 2 ^ 64, 7⟩ 4099 8197).1.address
        = rounded_start 64 (fun _ => 2 ^ 64 - 16) 4099 8197 ∧
      (__gnat_heap_init 64 (fun _ => 2 ^ 64 - 16) 2 ⟨0, 0, 2 ^ 64, 7⟩ 4099 8197).1.base
        = rounded_start 64 (fun _ => 2 ^ 64 - 16) 4099 8197 ∧
      (__gnat_heap_init 64 (fun _ => 2 ^ 64 - 16) 2 ⟨0, 0, 2 ^ 64, 7⟩ 4099 8197).1.length
        = rounded_end 64 (fun _ => 2 ^ 64 - 16) 4099 8197
          - rounded_start 64 (fun _ => 2 ^ 64 - 16) 4099 8197 ∧
      (__gnat_heap_init 64 (fun _ => 2 ^ 64 - 16) 2 ⟨0, 0, 2 ^ 64, 7⟩ 4099 8197).2
        = rounded_end 64 (fun _ => 2 ^ 64 - 16) 4099 8197) ∧
     (4099 ≤ (__gnat_heap_init 64 (fun _ => 2 ^ 64 - 16) 2 ⟨0, 0, 2 ^ 64, 7⟩ 4099 8197).1.base ∧
      (__gnat_heap_init 64 (fun _ => 2 ^ 64 - 16) 2 ⟨0, 0, 2 ^ 64, 7⟩ 4099 8197).1.base
          + (__gnat_heap_init 64 (fun _ => 2 ^ 64 - 16) 2 ⟨0, 0, 2 ^ 64, 7⟩ 4099 8197).1.length
        ≤ 8197)) :=
  ⟨by decide, by decide, by decide, by decide, by decide,
   heap_init_bounds_inside_region 64 4 (fun _ => 2 ^ 64 - 16) 2 ⟨0, 0, 2 ^ 64, 7⟩ 4099 8197
     (by decide) (by decide) (by decide) (by decide) (by decide)⟩

/-- The region `[0x1003, 0x2005)` with the 16-byte alignment mask is bounded by
`[0x1010, 0x2000)`; the one-byte region `[0x1003, 0x1004)` keeps its bounds under the
all-ones mask of alignment 1, and is left by the rounding under a 16-byte mask, whose
alignment exceeds the region's length plus one. -/
theorem heap_init_bounds_example :
    (rounded_start 64 (fun _ => 2 ^ 64 - 16) 4099 8197 = 4112 ∧
      rounded_end 64 (fun _ => 2 ^ 64 - 16) 4099 8197 = 8192) ∧
    (rounded_start 64 (fun _ => 2 ^ 64 - 1) 4099 4100 = 4099 ∧
      rounded_end 64 (fun _ => 2 ^ 64 - 1) 4099 4100 = 4100) ∧
    (rounded_start 64 (fun _ => 2 ^ 64 - 16) 4099 4100 = 4112 ∧
      rounded_end 64 (fun _ => 2 ^ 64 - 16) 4099 4100 = 4096) := by
  decide

theorem word_not_testBit (w x i : Nat) :
    (word_not w x).testBit i = (decide (i < w) && !(x % 2 ^ w).testBit i) := by
  unfold word_not
  rw [Nat.sub_sub, Nat.add_comm 1, Nat.testBit_two_pow_sub_succ (Nat.mod_lt _ (Nat.two_pow_pos w))]

theorem perms_and_not_bit (w e p : Nat) (he : e < w) (hp : p < 2 ^ w) :
    (p &&& word_not w (2 ^ e)).testBit e = false ∧
    ∀ i, i ≠ e → (p &&& word_not w (2 ^ e)).testBit i = p.testBit i := by
  have hlt : 2 ^ e < 2 ^ w := Nat.pow_lt_pow_right (by decide) he
  constructor
  · rw [Nat.testBit_and, word_not_testBit, Nat.mod_eq_of_lt hlt, Nat.testBit_two_pow_self]
    simp
  · intro i hi
    rw [Nat.testBit_and, word_not_testBit, Nat.mod_eq_of_lt hlt,
      Nat.testBit_two_pow_of_ne (fun h => hi h.symm)]
    by_cases hiw : i < w
    · simp [hiw]
    · have : p.testBit i = false :=
        Nat.testBit_lt_two_pow (lt_of_lt_of_le hp (Nat.pow_le_pow_right (by decide) (by omega)))
      simp [this]

/-- C16. Result of `__gnat_heap_init`, for every default data capability (its permissions
a `w`-bit word), every heap extent and the execute permission bit `2^e`: the
capability stored in `heap_ptr` has its address, and the start of its bounds, at the
rounded base; its length is the rounded limit minus the rounded base, as a `w`-bit
`size_t` (so the plain difference when the rounded base is not above the rounded
limit); its permissions are those of the default data capability with bit `e` cleared
and every other bit unchanged; and `heap_end` is the rounded limit. -/
theorem heap_init_result (w e : Nat) (crrm : Nat → Nat) (ddc : Capability)
    (heap_start heap_end : Nat) (he : e < w) (hp : ddc.perms < 2 ^ w) :
    (__gnat_heap_init w crrm (2 ^ e) ddc heap_start heap_end).1.address
        = rounded_start w crrm heap_start heap_end ∧
    (__gnat_heap_init w crrm (2 ^ e) ddc heap_start heap_end).1.base
        = rounded_start w crrm heap_start heap_end ∧
    (((__gnat_heap_init w crrm (2 ^ e) ddc heap_start heap_end).1.length : Nat) : Int)
        = (((rounded_end w crrm heap_start heap_end : Nat) : Int)
            - ((rounded_start w crrm heap_start heap_end : Nat) : Int)) % 2 ^ w ∧
    (rounded_start w crrm heap_start heap_end ≤ rounded_end w crrm heap_start heap_end →
      (__gnat_heap_init w crrm (2 ^ e) ddc heap_start heap_end).1.length
        = rounded_end w crrm heap_start heap_end - rounded_start w crrm heap_start heap_end) ∧
    (__gnat_heap_init w crrm (2 ^ e) ddc heap_start heap_end).1.perms.testBit e = false ∧
    (∀ i, i ≠ e →
      (__gnat_heap_init w crrm (2 ^ e) ddc heap_start heap_end).1.perms.testBit i
        = ddc.perms.testBit i) ∧
    (__gnat_heap_init w crrm (2 ^ e) ddc heap_start heap_end).2
        = rounded_end w crrm heap_start heap_end := by
  obtain ⟨f1, f2, f3, f4, f5⟩ := heap_init_fields w crrm (2 ^ e) ddc heap_start heap_end
  have hpow : (0 : Int) < 2 ^ w := by positivity
  have hnn : (0 : Int) ≤ (((rounded_end w crrm heap_start heap_end : Nat) : Int)
      - ((rounded_start w crrm heap_start heap_end : Nat) : Int)) % 2 ^ w :=
    Int.emod_nonneg _ (ne_of_gt hpow)
  refine ⟨f1, f2, ?_, ?_, ?_, ?_, f5⟩
  · rw [f3, Int.toNat_of_nonneg hnn]
  · intro hle
    have hre : rounded_end w crrm heap_start heap_end < 2 ^ w :=
      lt_of_le_of_lt Nat.and_le_right (heap_init_mask_lt w crrm heap_start heap_end)
    have hcast : ((2 : Int) ^ w) = ((2 ^ w : Nat) : Int) := by push_cast; rfl
    rw [f3, Int.emod_eq_of_lt (by omega) (by rw [hcast]; omega)]
    omega
  · rw [f4]; exact (perms_and_not_bit w e ddc.perms he hp).1
  · intro i hi
    rw [f4]; exact (perms_and_not_bit w e ddc.perms he hp).2 i hi

theorem heap_init_result_witness :
    1 < 64 ∧ (⟨0, 0, 2 ^ 64, 7⟩ : Capability).perms < 2 ^ 64 ∧
    (__gnat_heap_init 64 (fun _ => 2 ^ 64 - 16) (2 ^ 1) ⟨0, 0, 2 ^ 64, 7⟩ 4099 8197).1.address
        = rounded_start 64 (fun _ => 2 ^ 64 - 16) 4099 8197 ∧
    (__gnat_heap_init 64 (fun _ => 2 ^ 64 - 16) (2 ^ 1) ⟨0, 0, 2 ^ 64, 7⟩ 4099 8197).1.perms.testBit 1
        = false ∧
    (__gnat_heap_init 64 (fun _ => 2 ^ 64 - 16) (2 ^ 1) ⟨0, 0, 2 ^ 64, 7⟩ 4099 8197).2
        = rounded_end 64 (fun _ => 2 ^ 64 - 16) 4099 8197 :=
  ⟨by decide, by decide,
   (heap_init_result 64 1 (fun _ => 2 ^ 64 - 16) ⟨0, 0, 2 ^ 64, 7⟩ 4099 8197
      (by decide) (by decide)).1,
   (heap_init_result 64 1 (fun _ => 2 ^ 64 - 16) ⟨0, 0, 2 ^ 64, 7⟩ 4099 8197
      (by decide) (by decide)).2.2.2.2.1,
   (heap_init_result 64 1 (fun _ => 2 ^ 64 - 16) ⟨0, 0, 2 ^ 64, 7⟩ 4099 8197
      (by decide) (by decide)).2.2.2.2.2.2⟩

/-- For the region `[0x1003, 0x2005)`, the 16-byte alignment mask, execute bit 2 and a
default data capability with permissions 7, `__gnat_heap_init` stores the capability
with address 0x1010, bounds starting there, length 0xff0 and permissions 5, and the
ceiling 0x2000. -/
theorem heap_init_example :
    __gnat_heap_init 64 (fun _ => 2 ^ 64 - 16) 2 ⟨0, 0, 2 ^ 64, 7⟩ 4099 8197
      = (⟨4112, 4112, 4080, 5⟩, 8192) := by
  decide

/-! ## Theorems: what `_read` takes from the device -/

theorem write_trace (fuel : Nat) (s : Console) (fd : Int) (buf : Nat → Char) (nbytes : Int)
    (r : Int × Console) (h : _write fuel s fd buf nbytes = some r) :
    r.2.initialized = true ∧ r.2.cr_lf = s.cr_lf ∧
    ∃ es, r.2.calls = s.calls ++ (if s.initialized then [] else [Call.init]) ++ es ∧
      Call.init ∉ es := by
  unfold _write at h
  cases hi : s.initialized
  · simp only [hi, Bool.not_false, if_true] at h
    cases hl : write_loop fuel buf nbytes.toNat 0 ( system__text_io__initialize s) with
    | none => rw [hl] at h; simp at h
    | some t =>
      rw [hl] at h
      simp only [Option.some.injEq] at h
      subst h
      obtain ⟨q1, q2, es, q3, q4⟩ := write_loop_quiet fuel buf _ _ _ _ hl
      exact ⟨q1, q2, es, by rw [q3]; simp [ system__text_io__initialize], q4⟩
  · simp only [hi, Bool.not_true, Bool.false_eq_true, if_false] at h
    cases hl : write_loop fuel buf nbytes.toNat 0 s with
    | none => rw [hl] at h; simp at h
    | some t =>
      rw [hl] at h
      simp only [Option.some.injEq] at h
      subst h
      obtain ⟨q1, q2, es, q3, q4⟩ := write_loop_quiet fuel buf _ _ _ _ hl
      exact ⟨q1.trans hi, q2, es, by rw [q3]; simp, q4⟩

theorem read_taken (fuel : Nat) (s : Console) (fd : Int) (buf : Nat → Char) (count : Int)
    (r : Nat × (Nat → Char) × Console) (h : _read fuel s fd buf count = some r) :
    (r.2.2.initialized = true ∧ r.2.2.cr_lf = s.cr_lf ∧
      ∃ es, r.2.2.calls = s.calls ++ (if s.initialized then [] else [Call.init]) ++ es ∧
        Call.init ∉ es) ∧
    ∃ taken : List Char,
      s.rx = taken ++ r.2.2.rx ∧
      got r.2.2 = got s ++ taken ∧
      bytes r.2.1 r.1 = accepted s.cr_lf taken ∧
      r.1 = (accepted s.cr_lf taken).length ∧
      taken.getLast? = (accepted s.cr_lf taken).getLast? ∧
      (0 < count → taken ≠ []) ∧
      (count ≤ 0 → taken = []) := by
  unfold _read at h
  cases hi : s.initialized
  · simp only [hi, Bool.not_false, if_true] at h
    obtain ⟨⟨q1, q2, es, q3, q4⟩, taken, g1, g2, g3, g4, g5, g6, g7⟩ :=
      read_loop_taken fuel count _ _ _ _ r h
    refine ⟨⟨q1, q2, es, by rw [q3]; simp [ system__text_io__initialize], q4⟩,
      taken, g1, ?_, ?_, ?_, g5, ?_, ?_⟩
    · rw [g2]; simp [got, system__text_io__initialize, List.filterMap_append]
    · rw [g3]; simp [bytes]; rfl
    · rw [g4]; simp; rfl
    · intro hc; exact g6 (by simpa using hc)
    · intro hc; exact g7 (by simpa using hc)
  · simp only [hi, Bool.not_true, Bool.false_eq_true, if_false] at h
    obtain ⟨⟨q1, q2, es, q3, q4⟩, taken, g1, g2, g3, g4, g5, g6, g7⟩ :=
      read_loop_taken fuel count _ _ _ _ r h
    refine ⟨⟨q1.trans hi, q2, es, by rw [q3]; simp, q4⟩,
      taken, g1, g2, ?_, ?_, g5, ?_, ?_⟩
    · rw [g3]; simp [bytes]
    · rw [g4]; simp
    · intro hc; exact g6 (by simpa using hc)
    · intro hc; exact g7 (by simpa using hc)

theorem read_returns (s : Console) (fd : Int) (buf : Nat → Char) (count : Int)
    (hlive : '\n' ∈ accepted s.cr_lf s.rx ∨
      count.toNat ≤ (accepted s.cr_lf s.rx).length) :
    ∃ fuel0 : Nat, ∀ fuel : Nat, fuel0 ≤ fuel →
      ∃ r, _read fuel s fd buf count = some r ∧
        r.1 = (line_cut count.toNat (accepted s.cr_lf s.rx)).length ∧
        bytes r.2.1 r.1 = line_cut count.toNat (accepted s.cr_lf s.rx) := by
  refine ⟨max (max s.rx_busy s.rx_delay) s.rx.length + 1, fun fuel hfuel => ?_⟩
  have hb : s.rx_busy < fuel := by
    have := le_max_left s.rx_busy s.rx_delay
    have := le_max_left (max s.rx_busy s.rx_delay) s.rx.length
    omega
  have hd : s.rx_delay < fuel := by
    have := le_max_right s.rx_busy s.rx_delay
    have := le_max_left (max s.rx_busy s.rx_delay) s.rx.length
    omega
  have hk : s.rx.length < fuel := by
    have := le_max_right (max s.rx_busy s.rx_delay) s.rx.length
    omega
  have key : ∀ t : Console, t.rx = s.rx → t.rx_busy = s.rx_busy → t.rx_delay = s.rx_delay →
      t.cr_lf = s.cr_lf →
      ∃ r, read_loop fuel count fuel 0 buf t = some r ∧
        r.1 = (line_cut count.toNat (accepted s.cr_lf s.rx)).length ∧
        bytes r.2.1 r.1 = line_cut count.toNat (accepted s.cr_lf s.rx) := by
    intro t t1 t2 t3 t4
    obtain ⟨r, g1, g2, g3, _⟩ := read_loop_ok fuel count s.rx fuel 0 buf t t1
      (by rw [t2]; exact hb) (by rw [t3]; exact hd) hk
      (by rw [t4, Nat.sub_zero]; exact hlive)
    rw [t4, Nat.sub_zero] at g2 g3
    refine ⟨r, g1, by simpa using g2, ?_⟩
    rw [g3]
    simp [bytes]
  cases hi : s.initialized
  · obtain ⟨r, g⟩ := key ( system__text_io__initialize s) rfl rfl rfl rfl
    exact ⟨r, by simpa [_read, hi] using g.1, g.2⟩
  · obtain ⟨r, g⟩ := key s rfl rfl rfl rfl
    exact ⟨r, by simpa [_read, hi] using g.1, g.2⟩

theorem filter_length_add_count (cs : List Char) :
    (cs.filter fun c => c ≠ '\r').length + cs.count '\r' = cs.length := by
  induction cs with
  | nil => rfl
  | cons c cs ih =>
    by_cases hc : c = '\r'
    · subst hc
      have h1 : (('\r' :: cs).filter fun c => c ≠ '\r') = cs.filter fun c => c ≠ '\r' := by
        simp
      rw [h1, List.count_cons_self]
      simp only [List.length_cons]
      omega
    · have h1 : ((c :: cs).filter fun c => c ≠ '\r')
          = c :: cs.filter fun c => c ≠ '\r' := by
        simp [hc]
      have h2 : (c :: cs).count '\r' = cs.count '\r' := by
        simp [List.count_cons, hc]
      rw [h1, h2]
      simp only [List.length_cons]
      omega

theorem line_cut_complete :
    ∀ (n : Nat) (cs : List Char), ('\n' ∈ cs ∨ n ≤ cs.length) →
      (line_cut n cs).length = n ∨ (line_cut n cs).getLast? = some '\n' := by
  intro n cs
  induction cs generalizing n with
  | nil =>
    intro h
    rcases h with h | h
    · simp at h
    · have : n = 0 := by simpa using h
      subst this
      left; rfl
  | cons c cs ih =>
    intro h
    cases n with
    | zero => left; rfl
    | succ n =>
      rw [line_cut_succ_cons]
      by_cases hc : c = '\n'
      · right; simp [hc]
      · rw [if_neg hc]
        have h' : '\n' ∈ cs ∨ n ≤ cs.length := by
          rcases h with h | h
          · left
            simp only [List.mem_cons] at h
            rcases h with h | h
            · exact absurd h.symm hc
            · exact h
          · right
            simp only [List.length_cons] at h
            omega
        rcases ih n h' with g | g
        · left; simp [g]
        · right
          have hne : line_cut n cs ≠ [] := by
            intro hnil; rw [hnil] at g; simp at g
          rw [getLast?_cons_of_ne_nil c _ hne]
          exact g

/-- C11. Carriage-return handling in `_read`, for a call that the device lets return:
with CR/LF translation on, the bytes stored are the characters received minus every
carriage-return, so no carriage-return appears in the output and none counts toward
`max_count` (the cap applies to the stream without its carriage-returns, and the value
returned plus the number of carriage-returns received is the number of characters
received); with translation off, the bytes stored are the characters received,
carriage-returns included, each counted like any other character. -/
theorem read_carriage_return_handling (s : Console) (fd : Int) (buf : Nat → Char)
    (count : Int)
    (hlive : '\n' ∈ accepted s.cr_lf s.rx ∨
      count.toNat ≤ (accepted s.cr_lf s.rx).length) :
    ∃ fuel0 : Nat, ∀ fuel : Nat, fuel0 ≤ fuel →
      ∃ r taken, _read fuel s fd buf count = some r ∧
        got r.2.2 = got s ++ taken ∧
        (s.cr_lf = true →
          bytes r.2.1 r.1 = taken.filter (fun c => c ≠ '\r') ∧
          '\r' ∉ bytes r.2.1 r.1 ∧
          r.1 + taken.count '\r' = taken.length ∧
          bytes r.2.1 r.1 = line_cut count.toNat (s.rx.filter fun c => c ≠ '\r')) ∧
        (s.cr_lf = false →
          bytes r.2.1 r.1 = taken ∧
          r.1 = taken.length ∧
          bytes r.2.1 r.1 = line_cut count.toNat s.rx) := by
  obtain ⟨fuel0, hf⟩ := read_returns s fd buf count hlive
  refine ⟨fuel0, fun fuel hfuel => ?_⟩
  obtain ⟨r, h1, h2, h3⟩ := hf fuel hfuel
  obtain ⟨_, taken, g1, g2, g3, g4, g5, g6, g7⟩ := read_taken fuel s fd buf count r h1
  refine ⟨r, taken, h1, g2, fun hon => ?_, fun hoff => ?_⟩
  · rw [hon] at g3 g4 h3
    have ha : accepted true taken = taken.filter (fun c => c ≠ '\r') := by simp [accepted]
    have hb : accepted true s.rx = s.rx.filter (fun c => c ≠ '\r') := by simp [accepted]
    rw [ha] at g3 g4
    rw [hb] at h3
    refine ⟨g3, ?_, ?_, h3⟩
    · rw [g3]
      intro hmem
      have := (List.mem_filter.mp hmem).2
      simp at this
    · rw [g4]; exact filter_length_add_count taken
  · rw [hoff] at g3 g4 h3
    have ha : accepted false taken = taken := by simp [accepted]
    have hb : accepted false s.rx = s.rx := by simp [accepted]
    rw [ha] at g3 g4
    rw [hb] at h3
    exact ⟨g3, g4, h3⟩

theorem read_carriage_return_handling_witness :
    ('\n' ∈ accepted (⟨false, true, 0, 0, 1, 1, ['H', '\r', '\n'], []⟩ : Console).cr_lf
        (⟨false, true, 0, 0, 1, 1, ['H', '\r', '\n'], []⟩ : Console).rx ∨
      (3 : Int).toNat ≤ (accepted (⟨false, true, 0, 0, 1, 1, ['H', '\r', '\n'], []⟩
        : Console).cr_lf (⟨false, true, 0, 0, 1, 1, ['H', '\r', '\n'], []⟩
        : Console).rx).length) ∧
    ∃ fuel0 : Nat, ∀ fuel : Nat, fuel0 ≤ fuel →
      ∃ r, _read fuel ⟨false, true, 0, 0, 1, 1, ['H', '\r', '\n'], []⟩ 0 (buffer_of []) 3
          = some r ∧
        bytes r.2.1 r.1 = ['H', '\n'] ∧ '\r' ∉ bytes r.2.1 r.1 :=
  have hlive : '\n' ∈ accepted (⟨false, true, 0, 0, 1, 1, ['H', '\r', '\n'], []⟩
        : Console).cr_lf (⟨false, true, 0, 0, 1, 1, ['H', '\r', '\n'], []⟩ : Console).rx ∨
      (3 : Int).toNat ≤ (accepted (⟨false, true, 0, 0, 1, 1, ['H', '\r', '\n'], []⟩
        : Console).cr_lf (⟨false, true, 0, 0, 1, 1, ['H', '\r', '\n'], []⟩
        : Console).rx).length := Or.inl (by decide)
  ⟨hlive,
   (read_carriage_return_handling ⟨false, true, 0, 0, 1, 1, ['H', '\r', '\n'], []⟩ 0
      (buffer_of []) 3 hlive).imp fun _ h fuel hf =>
        (h fuel hf).imp fun _ hr =>
          hr.elim fun _ ht => ⟨ht.1, (ht.2.2.1 rfl).2.2.2, (ht.2.2.1 rfl).2.1⟩⟩

/-- The device stream `H, CR, LF` read with `max_count = 3` gives `H, LF` and the value 2
with CR/LF translation on, and `H, CR, LF` and the value 3 with translation off. -/
theorem read_example_crlf :
    (_read 5 ⟨false, true, 0, 0, 1, 1, ['H', '\r', '\n'], []⟩ 0 (buffer_of []) 3).map
        (fun r => (r.1, bytes r.2.1 r.1, got r.2.2)) = some (2, ['H', '\n'], ['H', '\r', '\n']) ∧
    (_read 5 ⟨false, false, 0, 0, 1, 1, ['H', '\r', '\n'], []⟩ 0 (buffer_of []) 3).map
        (fun r => (r.1, bytes r.2.1 r.1, got r.2.2))
      = some (3, ['H', '\r', '\n'], ['H', '\r', '\n']) := by
  decide

/-- C18. No read-ahead, for a call that the device lets return: the characters `_read`
takes from the device are a prefix of the device stream and the rest of the stream
stays with the device; their number is the value returned plus the number of
carriage-returns discarded; the last character taken is the last character stored,
which is a line-feed or the `max_count`-th accepted character; and with
`max_count <= 0` no character is taken and the result is 0. -/
theorem read_no_read_ahead (s : Console) (fd : Int) (buf : Nat → Char) (count : Int)
    (hlive : '\n' ∈ accepted s.cr_lf s.rx ∨
      count.toNat ≤ (accepted s.cr_lf s.rx).length) :
    ∃ fuel0 : Nat, ∀ fuel : Nat, fuel0 ≤ fuel →
      ∃ r taken, _read fuel s fd buf count = some r ∧
        got r.2.2 = got s ++ taken ∧
        s.rx = taken ++ r.2.2.rx ∧
        taken.length = r.1 + (if s.cr_lf = true then taken.count '\r' else 0) ∧
        taken.getLast? = (bytes r.2.1 r.1).getLast? ∧
        (taken ≠ [] → (bytes r.2.1 r.1).getLast? = some '\n' ∨ (r.1 : Int) = count) ∧
        (count ≤ 0 → taken = [] ∧ r.1 = 0 ∧ r.2.2.rx = s.rx) := by
  obtain ⟨fuel0, hf⟩ := read_returns s fd buf count hlive
  refine ⟨fuel0, fun fuel hfuel => ?_⟩
  obtain ⟨r, h1, h2, h3⟩ := hf fuel hfuel
  obtain ⟨_, taken, g1, g2, g3, g4, g5, g6, g7⟩ := read_taken fuel s fd buf count r h1
  refine ⟨r, taken, h1, g2, g1, ?_, ?_, ?_, ?_⟩
  · cases hcr : s.cr_lf
    · rw [hcr] at g4
      have ha : accepted false taken = taken := by simp [accepted]
      rw [ha] at g4
      simp [g4]
    · rw [hcr] at g4
      have ha : accepted true taken = taken.filter (fun c => c ≠ '\r') := by simp [accepted]
      rw [ha] at g4
      have := filter_length_add_count taken
      simp only [if_true]
      omega
  · rw [g3]; exact g5
  · intro hne
    have hpos : 0 < count := by
      by_contra hc
      exact hne (g7 (not_lt.mp hc))
    rcases line_cut_complete count.toNat (accepted s.cr_lf s.rx) hlive with hc | hc
    · right
      rw [h2, hc]
      omega
    · left
      rw [h3]; exact hc
  · intro hc
    have ht := g7 hc
    subst ht
    refine ⟨rfl, ?_, ?_⟩
    · rw [g4, accepted_nil]; rfl
    · simpa using g1.symm

theorem read_no_read_ahead_witness :
    ('\n' ∈ accepted (⟨false, true, 0, 0, 1, 1, ['\r', 'A', '\r', 'B', 'C', 'D'], []⟩
        : Console).cr_lf
        (⟨false, true, 0, 0, 1, 1, ['\r', 'A', '\r', 'B', 'C', 'D'], []⟩ : Console).rx ∨
      (2 : Int).toNat ≤ (accepted
        (⟨false, true, 0, 0, 1, 1, ['\r', 'A', '\r', 'B', 'C', 'D'], []⟩ : Console).cr_lf
        (⟨false, true, 0, 0, 1, 1, ['\r', 'A', '\r', 'B', 'C', 'D'], []⟩
          : Console).rx).length) ∧
    ∃ fuel0 : Nat, ∀ fuel : Nat, fuel0 ≤ fuel →
      ∃ r taken, _read fuel ⟨false, true, 0, 0, 1, 1, ['\r', 'A', '\r', 'B', 'C', 'D'], []⟩ 0
          (buffer_of []) 2 = some r ∧
        ['\r', 'A', '\r', 'B', 'C', 'D'] = taken ++ r.2.2.rx ∧
        taken.length = r.1 + taken.count '\r' :=
  have hlive : '\n' ∈ accepted (⟨false, true, 0, 0, 1, 1,
        ['\r', 'A', '\r', 'B', 'C', 'D'], []⟩ : Console).cr_lf
        (⟨false, true, 0, 0, 1, 1, ['\r', 'A', '\r', 'B', 'C', 'D'], []⟩ : Console).rx ∨
      (2 : Int).toNat ≤ (accepted
        (⟨false, true, 0, 0, 1, 1, ['\r', 'A', '\r', 'B', 'C', 'D'], []⟩ : Console).cr_lf
        (⟨false, true, 0, 0, 1, 1, ['\r', 'A', '\r', 'B', 'C', 'D'], []⟩
          : Console).rx).length := Or.inr (by decide)
  ⟨hlive,
   (read_no_read_ahead ⟨false, true, 0, 0, 1, 1, ['\r', 'A', '\r', 'B', 'C', 'D'], []⟩ 0
      (buffer_of []) 2 hlive).imp fun _ h fuel hf =>
        (h fuel hf).imp fun _ hr =>
          hr.imp fun _ ht => ⟨ht.1, ht.2.2.1, ht.2.2.2.1⟩⟩

/-- The device stream `CR, A, CR, B, C, D` read with `max_count = 2` and translation on:
four characters are taken, `A, B` is stored, 2 is returned and `C, D` stay with the
device; with `max_count = 0` nothing is taken. -/
theorem read_example_no_read_ahead :
    (_read 5 ⟨false, true, 0, 0, 1, 1, ['\r', 'A', '\r', 'B', 'C', 'D'], []⟩ 0
        (buffer_of []) 2).map (fun r => (r.1, bytes r.2.1 r.1, got r.2.2, r.2.2.rx))
      = some (2, ['A', 'B'], ['\r', 'A', '\r', 'B'], ['C', 'D']) ∧
    (_read 5 ⟨false, true, 0, 0, 1, 1, ['\r', 'A', '\r', 'B', 'C', 'D'], []⟩ 0
        (buffer_of []) 0).map (fun r => (r.1, got r.2.2, r.2.2.rx))
      = some (0, [], ['\r', 'A', '\r', 'B', 'C', 'D']) := by
  decide


/-! ## Theorems: write/read round trip -/

theorem write_returns (s : Console) (fd : Int) (buf : Nat → Char) (nbytes : Int) :
    ∃ fuel0 : Nat, ∀ fuel : Nat, fuel0 ≤ fuel →
      ∃ s', _write fuel s fd buf nbytes = some (nbytes, s') ∧
        sent s' = sent s ++ with_cr s.cr_lf (bytes buf nbytes.toNat) := by
  refine ⟨max s.tx_busy s.tx_delay + 1, fun fuel hfuel => ?_⟩
  have hb : s.tx_busy < fuel := by
    have := le_max_left s.tx_busy s.tx_delay
    omega
  have hd : s.tx_delay < fuel := by
    have := le_max_right s.tx_busy s.tx_delay
    omega
  have key : ∀ t : Console, t.tx_busy = s.tx_busy → t.tx_delay = s.tx_delay →
      t.cr_lf = s.cr_lf → sent t = sent s →
      ∃ s', write_loop fuel buf nbytes.toNat 0 t = some s' ∧
        sent s' = sent s ++ with_cr s.cr_lf (bytes buf nbytes.toNat) := by
    intro t t1 t2 t3 t4
    obtain ⟨s', h1, h2, _, _⟩ := write_loop_ok fuel buf nbytes.toNat 0 t
      (by rw [t1]; exact hb) (by rw [t2]; exact hd)
    refine ⟨s', h1, ?_⟩
    rw [h2, t3, t4]
    simp [bytes]
  cases hi : s.initialized
  · obtain ⟨s', h1, h2⟩ := key ( system__text_io__initialize s) rfl rfl rfl
      (by simp [sent, system__text_io__initialize, List.filterMap_append])
    exact ⟨s', by simp [_write, hi, h1], h2⟩
  · obtain ⟨s', h1, h2⟩ := key s rfl rfl rfl rfl
    exact ⟨s', by simp [_write, hi, h1], h2⟩

theorem bytes_buffer_of (bs : List Char) : bytes (buffer_of bs) bs.length = bs := by
  apply List.ext_getElem
  · simp [bytes]
  · intro i h1 h2
    simp [bytes, buffer_of, List.getD_eq_getElem?_getD, List.getElem?_eq_getElem h2]

theorem accepted_with_cr (cr_lf : Bool) (bs : List Char) (hcr : '\r' ∉ bs) :
    accepted cr_lf (with_cr cr_lf bs) = bs := by
  cases cr_lf
  · rw [with_cr_off]; simp [accepted]
  · induction bs with
    | nil => rfl
    | cons c cs ih =>
      have hc : c ≠ '\r' := fun h => hcr (by simp [h])
      have hcs : '\r' ∉ cs := fun h => hcr (List.mem_cons_of_mem c h)
      have ih' := ih hcs
      simp only [accepted, if_true] at ih' ⊢
      rw [with_cr_cons, List.filter_append, ih']
      by_cases hlf : c = '\n'
      · subst hlf; simp
      · simp [hlf, hc]

theorem line_cut_full :
    ∀ (n : Nat) (bs : List Char), lf_only_last bs → bs.length ≤ n → line_cut n bs = bs := by
  intro n bs
  induction bs generalizing n with
  | nil => intro _ _; cases n <;> rfl
  | cons c cs ih =>
    intro hlf hlen
    cases n with
    | zero => simp at hlen
    | succ n =>
      simp only [List.length_cons, Nat.add_le_add_iff_right] at hlen
      rw [line_cut_succ_cons]
      by_cases hnil : cs = []
      · subst hnil
        by_cases hc : c = '\n'
        · rw [if_pos hc]
        · rw [if_neg hc]; cases n <;> rfl
      · have := (lf_only_last_cons c cs hnil).mp hlf
        rw [if_neg this.1, ih n this.2 hlen]

/-- C17. Write/read round trip: for a byte string with no carriage-return whose last
byte is a line-feed and which has no other line-feed, and `max_count` at least its
length, `_write` of the string returns its length, and `_read` on a device that
delivers exactly what that `_write` sent, under the same CR/LF setting, stores the
string and returns its length; this holds for either setting. -/
theorem write_read_round_trip (ws : Console) (bs : List Char) (count : Int)
    (wfd rfd : Int) (buf : Nat → Char)
    (hcr : '\r' ∉ bs) (hlast : bs.getLast? = some '\n') (hlf : lf_only_last bs)
    (hcount : (bs.length : Int) ≤ count) :
    ∃ fuel0 : Nat, ∀ fuel : Nat, fuel0 ≤ fuel →
      ∃ ws', _write fuel ws wfd (buffer_of bs) (bs.length : Int)
          = some ((bs.length : Int), ws') ∧
        ∀ rs : Console, rs.cr_lf = ws.cr_lf →
          rs.rx = (sent ws').drop (sent ws).length →
          ∃ fuel1 : Nat, ∀ fuel' : Nat, fuel1 ≤ fuel' →
            ∃ r, _read fuel' rs rfd buf count = some r ∧
              bytes r.2.1 r.1 = bs ∧ r.1 = bs.length := by
  obtain ⟨fuel0, hw⟩ := write_returns ws wfd (buffer_of bs) (bs.length : Int)
  refine ⟨fuel0, fun fuel hfuel => ?_⟩
  obtain ⟨ws', w1, w2⟩ := hw fuel hfuel
  refine ⟨ws', w1, fun rs hsame hrx => ?_⟩
  have hout : rs.rx = with_cr ws.cr_lf bs := by
    rw [hrx, w2, List.drop_left, Int.toNat_ofNat, bytes_buffer_of]
  have hacc : accepted rs.cr_lf rs.rx = bs := by
    rw [hout, hsame]; exact accepted_with_cr ws.cr_lf bs hcr
  have hmem : '\n' ∈ bs := List.mem_of_getLast?_eq_some hlast
  have hlen : bs.length ≤ count.toNat := by omega
  obtain ⟨fuel1, hr⟩ := read_returns rs rfd buf count (by rw [hacc]; exact Or.inl hmem)
  refine ⟨fuel1, fun fuel' hfuel' => ?_⟩
  obtain ⟨r, r1, r2, r3⟩ := hr fuel' hfuel'
  rw [hacc, line_cut_full count.toNat bs hlf hlen] at r2 r3
  exact ⟨r, r1, r3, r2⟩

theorem write_read_round_trip_witness :
    '\r' ∉ ['h', 'i', '\n'] ∧ ['h', 'i', '\n'].getLast? = some '\n' ∧
    lf_only_last ['h', 'i', '\n'] ∧ ((['h', 'i', '\n'].length : Nat) : Int) ≤ 5 ∧
    ∃ fuel0 : Nat, ∀ fuel : Nat, fuel0 ≤ fuel →
      ∃ ws', _write fuel ⟨false, true, 1, 1, 0, 0, [], []⟩ 1 (buffer_of ['h', 'i', '\n'])
          ((['h', 'i', '\n'].length : Nat) : Int)
            = some (((['h', 'i', '\n'].length : Nat) : Int), ws') ∧
        ∀ rs : Console, rs.cr_lf = (⟨false, true, 1, 1, 0, 0, [], []⟩ : Console).cr_lf →
          rs.rx = (sent ws').drop (sent (⟨false, true, 1, 1, 0, 0, [], []⟩ : Console)).length →
          ∃ fuel1 : Nat, ∀ fuel' : Nat, fuel1 ≤ fuel' →
            ∃ r, _read fuel' rs 0 (buffer_of []) 5 = some r ∧
              bytes r.2.1 r.1 = ['h', 'i', '\n'] ∧ r.1 = ['h', 'i', '\n'].length :=
  ⟨by decide, by decide, by decide, by decide,
   write_read_round_trip ⟨false, true, 1, 1, 0, 0, [], []⟩ ['h', 'i', '\n'] 5 1 0
     (buffer_of []) (by decide) (by decide) (by decide) (by decide)⟩

/-- The string `h, i, LF` written with translation on reaches the device as
`h, i, CR, LF`; read back with translation on it is `h, i, LF` again, of length 3.
With translation off on both sides the device carries `h, i, LF` and the result is
the same. -/
theorem round_trip_example :
    (_write 3 ⟨false, true, 1, 1, 0, 0, [], []⟩ 1 (buffer_of ['h', 'i', '\n']) 3).map
        (fun r => sent r.2) = some ['h', 'i', '\r', '\n'] ∧
    (_read 5 ⟨false, true, 0, 0, 1, 1, ['h', 'i', '\r', '\n'], []⟩ 0 (buffer_of []) 5).map
        (fun r => (r.1, bytes r.2.1 r.1)) = some (3, ['h', 'i', '\n']) ∧
    (_write 3 ⟨false, false, 1, 1, 0, 0, [], []⟩ 1 (buffer_of ['h', 'i', '\n']) 3).map
        (fun r => sent r.2) = some ['h', 'i', '\n'] ∧
    (_read 5 ⟨false, false, 0, 0, 1, 1, ['h', 'i', '\n'], []⟩ 0 (buffer_of []) 5).map
        (fun r => (r.1, bytes r.2.1 r.1)) = some (3, ['h', 'i', '\n']) := by
  decide

/-! ## Theorems: lazy initialisation -/

theorem steady_refl (s : Console) : steady s s :=
  ⟨rfl, rfl, rfl, Or.inl (le_refl _), Or.inl (le_refl _), le_refl _⟩

theorem steady_trans {s t u : Console} (h1 : steady s t) (h2 : steady t u) : steady s u := by
  obtain ⟨a1, a2, a3, a4, a5, a6⟩ := h1
  obtain ⟨b1, b2, b3, b4, b5, b6⟩ := h2
  refine ⟨b1.trans a1, b2.trans a2, b3.trans a3, ?_, ?_, le_trans b6 a6⟩
  · omega
  · omega

theorem fits_of_steady {fuel : Nat} {s t : Console} (hf : fits fuel s) (h : steady s t) :
    fits fuel t := by
  obtain ⟨f1, f2, f3, f4, f5⟩ := hf
  obtain ⟨a1, a2, a3, a4, a5, a6⟩ := h
  refine ⟨?_, ?_, ?_, ?_, ?_⟩ <;> omega

theorem steady_tx_ready (s : Console) : steady s (system__text_io__is_tx_ready s).2 := by
  unfold system__text_io__is_tx_ready
  split
  · exact steady_refl s
  · rename_i k hk
    exact ⟨rfl, rfl, rfl, Or.inl (by simp only; omega), Or.inl (le_refl _), le_refl _⟩

theorem steady_rx_ready (s : Console) : steady s (system__text_io__is_rx_ready s).2 := by
  unfold system__text_io__is_rx_ready
  split
  · exact steady_refl s
  · exact steady_refl s
  · rename_i k hk
    exact ⟨rfl, rfl, rfl, Or.inl (le_refl _), Or.inl (by simp only; omega), le_refl _⟩

theorem steady_put (c : Char) (s : Console) : steady s (system__text_io__put c s) :=
  ⟨rfl, rfl, rfl, Or.inr (le_refl _), Or.inl (le_refl _), le_refl _⟩

theorem steady_get (s : Console) : steady s (system__text_io__get s).2 := by
  unfold system__text_io__get
  split
  · exact steady_refl s
  · rename_i c rest hrx
    exact ⟨rfl, rfl, rfl, Or.inl (le_refl _), Or.inr (le_refl _), by simp [hrx]⟩

theorem steady_cr_lf_query (s : Console) :
    steady s (system__text_io__use_cr_lf_for_new_line s).2 :=
  steady_refl s

theorem steady_init (s : Console) : steady s ( system__text_io__initialize s) :=
  steady_refl s

theorem write_console_steady :
    ∀ (fuel : Nat) (c : Char) (s s' : Console),
      write_console fuel c s = some s' → steady s s' := by
  intro fuel
  induction fuel with
  | zero => intro c s s' h; simp [write_console] at h
  | succ fuel ih =>
    intro c s s' h
    simp only [write_console] at h
    split at h
    · simp only [Option.some.injEq] at h
      subst h
      exact steady_trans (steady_tx_ready s) (steady_put c _)
    · exact steady_trans (steady_tx_ready s) (ih c _ s' h)

theorem write_loop_steady (fuel : Nat) (buf : Nat → Char) :
    ∀ (k i : Nat) (s s' : Console), write_loop fuel buf k i s = some s' → steady s s' := by
  intro k
  induction k with
  | zero =>
    intro i s s' h
    simp only [write_loop, Option.some.injEq] at h
    subst h
    exact steady_refl s
  | succ k ih =>
    intro i s s' h
    rw [write_loop_succ] at h
    have hq : steady s (if buf i = '\n' then system__text_io__use_cr_lf_for_new_line s
        else (false, s)).2 := by
      split
      · exact steady_cr_lf_query s
      · exact steady_refl s
    generalize (if buf i = '\n' then system__text_io__use_cr_lf_for_new_line s
        else (false, s)) = q at h hq
    cases h1 : (if q.1 = true then write_console fuel '\r' q.2 else some q.2) with
    | none => rw [h1] at h; simp at h
    | some s1 =>
      rw [h1] at h
      simp only at h
      have hq1 : steady s s1 := by
        by_cases hq1 : q.1 = true
        · rw [if_pos hq1] at h1
          exact steady_trans hq (write_console_steady fuel '\r' _ s1 h1)
        · rw [if_neg hq1] at h1
          simp only [Option.some.injEq] at h1
          subst h1
          exact hq
      cases h2 : write_console fuel (buf i) s1 with
      | none => rw [h2] at h; simp at h
      | some s2 =>
        rw [h2] at h
        simp only at h
        exact steady_trans hq1
          (steady_trans (write_console_steady fuel (buf i) s1 s2 h2) (ih (i + 1) s2 s' h))

theorem read_console_steady :
    ∀ (fuel : Nat) (s : Console) (c : Char) (s' : Console),
      read_console fuel s = some (c, s') → steady s s' := by
  intro fuel
  induction fuel with
  | zero => intro s c s' h; simp [read_console] at h
  | succ fuel ih =>
    intro s c s' h
    simp only [read_console] at h
    split at h
    · simp only [Option.some.injEq] at h
      have h2 : (system__text_io__get (system__text_io__is_rx_ready s).2).2 = s' := by
        rw [h]
      rw [← h2]
      exact steady_trans (steady_rx_ready s) (steady_get _)
    · exact steady_trans (steady_rx_ready s) (ih _ c s' h)

theorem read_query_steady (c : Char) (s1 : Console) :
    steady s1
      (if c = '\r' then system__text_io__use_cr_lf_for_new_line s1 else (false, s1)).2 := by
  split
  · exact steady_cr_lf_query s1
  · exact steady_refl s1

theorem read_rest_succ_cons (cr_lf : Bool) (n : Nat) (c : Char) (rx : List Char) :
    read_rest cr_lf (n + 1) (c :: rx)
      = if (decide (c = '\r') && cr_lf) = true then read_rest cr_lf (n + 1) rx
        else if c = '\n' then rx else read_rest cr_lf n rx := by
  simp [read_rest]

theorem read_rest_zero (cr_lf : Bool) (rx : List Char) : read_rest cr_lf 0 rx = rx := by
  cases rx <;> simp [read_rest]

theorem read_loop_rest (fuel : Nat) (count : Int) :
    ∀ (k i : Nat) (buf : Nat → Char) (s : Console) (r : Nat × (Nat → Char) × Console),
      read_loop fuel count k i buf s = some r →
      steady s r.2.2 ∧ r.2.2.rx = read_rest s.cr_lf (count.toNat - i) s.rx := by
  intro k
  induction k with
  | zero => intro i buf s r h; simp [read_loop] at h
  | succ k ih =>
    intro i buf s r h
    rw [read_loop_succ] at h
    by_cases hcond : (i : Int) < count
    · rw [if_pos hcond] at h
      obtain ⟨n, hn⟩ : ∃ n, count.toNat - i = n + 1 := ⟨count.toNat - i - 1, by omega⟩
      have hn' : count.toNat - (i + 1) = n := by omega
      cases hrc : read_console fuel s with
      | none => rw [hrc] at h; simp at h
      | some p =>
        obtain ⟨c, s1⟩ := p
        rw [hrc] at h
        simp only at h
        obtain ⟨t1, t2, _⟩ := read_console_taken fuel s c s1 hrc
        have t4 := read_console_steady fuel s c s1 hrc
        obtain ⟨q1, q2, q3, _, _⟩ := read_query_facts c s1
        have q6 := read_query_steady c s1
        have hcr : s1.cr_lf = s.cr_lf := t1.2.1
        rw [t2, hn, read_rest_succ_cons]
        cases hq : (decide (c = '\r') && s.cr_lf)
        · -- the character is stored
          have hq' : (if c = '\r' then system__text_io__use_cr_lf_for_new_line s1
              else (false, s1)).1 = false := by rw [q1, hcr]; exact hq
          rw [hq'] at h
          simp only [Bool.false_eq_true, if_false] at h ⊢
          by_cases hlf : c = '\n'
          · rw [if_pos hlf] at h
            simp only [Option.some.injEq] at h
            subst h
            rw [if_pos hlf]
            exact ⟨steady_trans t4 q6, q2⟩
          · rw [if_neg hlf] at h
            obtain ⟨g0, g1⟩ := ih _ _ _ r h
            rw [q3, hcr, q2, hn'] at g1
            rw [if_neg hlf]
            exact ⟨steady_trans t4 (steady_trans q6 g0), g1⟩
        · -- a carriage-return under translation is discarded
          have hq' : (if c = '\r' then system__text_io__use_cr_lf_for_new_line s1
              else (false, s1)).1 = true := by rw [q1, hcr]; exact hq
          rw [hq'] at h
          simp only [if_true] at h ⊢
          obtain ⟨g0, g1⟩ := ih _ _ _ r h
          rw [q3, hcr, q2, hn] at g1
          exact ⟨steady_trans t4 (steady_trans q6 g0), g1⟩
    · rw [if_neg hcond] at h
      simp only [Option.some.injEq] at h
      subst h
      have hn : count.toNat - i = 0 := by omega
      rw [hn, read_rest_zero]
      exact ⟨steady_refl s, rfl⟩

/-- With enough polls for the state, `_write` returns; the device stream is untouched and
the same number of polls is enough afterwards. -/
theorem write_fits (fuel : Nat) (s : Console) (fd : Int) (buf : Nat → Char) (nbytes : Int)
    (hf : fits fuel s) :
    ∃ r, _write fuel s fd buf nbytes = some r ∧ fits fuel r.2 ∧ r.2.rx = s.rx ∧
      r.2.cr_lf = s.cr_lf := by
  have key : ∀ t : Console, steady s t → t.rx = s.rx →
      ∃ s', write_loop fuel buf nbytes.toNat 0 t = some s' ∧ fits fuel s' ∧ s'.rx = s.rx ∧
        s'.cr_lf = s.cr_lf := by
    intro t ht hrx
    have hft := fits_of_steady hf ht
    obtain ⟨s', h1, _, _, h4⟩ := write_loop_ok fuel buf nbytes.toNat 0 t hft.1 hft.2.1
    have hst := steady_trans ht (write_loop_steady fuel buf _ _ t s' h1)
    exact ⟨s', h1, fits_of_steady hf hst, h4.trans hrx, hst.1⟩
  cases hi : s.initialized
  · obtain ⟨s', h1, h2, h3, h4⟩ := key ( system__text_io__initialize s)
      (steady_init s) rfl
    exact ⟨(nbytes, s'), by simp [_write, hi, h1], h2, h3, h4⟩
  · obtain ⟨s', h1, h2, h3, h4⟩ := key s (steady_refl s) rfl
    exact ⟨(nbytes, s'), by simp [_write, hi, h1], h2, h3, h4⟩

/-- With enough polls for the state and enough device input, `_read` returns; it leaves
`read_rest` of the device stream, and the same number of polls is enough afterwards. -/
theorem read_fits (fuel : Nat) (s : Console) (fd : Int) (buf : Nat → Char) (count : Int)
    (hf : fits fuel s)
    (hlive : '\n' ∈ accepted s.cr_lf s.rx ∨
      count.toNat ≤ (accepted s.cr_lf s.rx).length) :
    ∃ r, _read fuel s fd buf count = some r ∧ fits fuel r.2.2 ∧
      r.2.2.rx = read_rest s.cr_lf count.toNat s.rx ∧ r.2.2.cr_lf = s.cr_lf := by
  have key : ∀ t : Console, steady s t → t.rx = s.rx → t.cr_lf = s.cr_lf →
      ∃ r, read_loop fuel count fuel 0 buf t = some r ∧ fits fuel r.2.2 ∧
        r.2.2.rx = read_rest s.cr_lf count.toNat s.rx ∧ r.2.2.cr_lf = s.cr_lf := by
    intro t ht hrx hcr
    have hft := fits_of_steady hf ht
    obtain ⟨r, h1, _⟩ := read_loop_ok fuel count s.rx fuel 0 buf t hrx hft.2.2.1
      hft.2.2.2.1 hf.2.2.2.2 (by rw [hcr, Nat.sub_zero]; exact hlive)
    obtain ⟨g0, g1⟩ := read_loop_rest fuel count fuel 0 buf t r h1
    rw [hcr, hrx, Nat.sub_zero] at g1
    have hst := steady_trans ht g0
    exact ⟨r, h1, fits_of_steady hf hst, g1, hst.1⟩
  cases hi : s.initialized
  · obtain ⟨r, h1, h2⟩ := key ( system__text_io__initialize s) (steady_init s) rfl rfl
    exact ⟨r, by simpa [_read, hi] using h1, h2⟩
  · obtain ⟨r, h1, h2⟩ := key s (steady_refl s) rfl rfl
    exact ⟨r, by simpa [_read, hi] using h1, h2⟩

/-- With enough polls and enough device input, every call of a sequence returns. -/
theorem serve_returns (fuel : Nat) :
    ∀ (ops : List Request) (s : Console), fits fuel s → live s.cr_lf s.rx ops →
      ∃ s', serve fuel s ops = some s' := by
  intro ops
  induction ops with
  | nil => intro s _ _; exact ⟨s, rfl⟩
  | cons op rest ih =>
    intro s hf hl
    cases op with
    | write fd buf nbytes =>
      obtain ⟨r, h1, h2, h3, h4⟩ := write_fits fuel s fd buf nbytes hf
      have hl' : live r.2.cr_lf r.2.rx rest := by
        rw [h3, h4]; exact hl
      obtain ⟨s', hs'⟩ := ih r.2 h2 hl'
      exact ⟨s', by simp only [serve, h1]; exact hs'⟩
    | read fd buf count =>
      obtain ⟨hl1, hl2⟩ := hl
      obtain ⟨r, h1, h2, h3, h4⟩ := read_fits fuel s fd buf count hf hl1
      have hl' : live r.2.2.cr_lf r.2.2.rx rest := by
        rw [h3, h4]; exact hl2
      obtain ⟨s', hs'⟩ := ih r.2.2 h2 hl'
      exact ⟨s', by simp only [serve, h1]; exact hs'⟩

theorem fits_of_le (s : Console) (fuel : Nat)
    (h : max (max (max s.tx_busy s.tx_delay) (max s.rx_busy s.rx_delay)) s.rx.length + 1
      ≤ fuel) : fits fuel s := by
  have h1 := le_max_left (max (max s.tx_busy s.tx_delay) (max s.rx_busy s.rx_delay))
    s.rx.length
  have h2 := le_max_right (max (max s.tx_busy s.tx_delay) (max s.rx_busy s.rx_delay))
    s.rx.length
  have h3 := le_max_left (max s.tx_busy s.tx_delay) (max s.rx_busy s.rx_delay)
  have h4 := le_max_right (max s.tx_busy s.tx_delay) (max s.rx_busy s.rx_delay)
  have h5 := le_max_left s.tx_busy s.tx_delay
  have h6 := le_max_right s.tx_busy s.tx_delay
  have h7 := le_max_left s.rx_busy s.rx_delay
  have h8 := le_max_right s.rx_busy s.rx_delay
  refine ⟨?_, ?_, ?_, ?_, ?_⟩ <;> omega

theorem serve_initialized (fuel : Nat) :
    ∀ (ops : List Request) (s s' : Console), s.initialized = true →
      serve fuel s ops = some s' →
      s'.initialized = true ∧ ∃ es, s'.calls = s.calls ++ es ∧ Call.init ∉ es := by
  intro ops
  induction ops with
  | nil =>
    intro s s' hi h
    simp only [serve, Option.some.injEq] at h
    subst h
    exact ⟨hi, [], by simp, by simp⟩
  | cons op rest ih =>
    intro s s' hi h
    cases op with
    | write fd buf nbytes =>
      simp only [serve] at h
      cases hw : _write fuel s fd buf nbytes with
      | none => rw [hw] at h; simp at h
      | some r =>
        rw [hw] at h
        simp only at h
        obtain ⟨t1, _, es, t3, t4⟩ := write_trace fuel s fd buf nbytes r hw
        obtain ⟨u1, fs, u2, u3⟩ := ih r.2 s' t1 h
        refine ⟨u1, es ++ fs, ?_, by simp [t4, u3]⟩
        rw [u2, t3, hi]
        simp
    | read fd buf count =>
      simp only [serve] at h
      cases hr : _read fuel s fd buf count with
      | none => rw [hr] at h; simp at h
      | some r =>
        rw [hr] at h
        simp only at h
        obtain ⟨⟨t1, _, es, t3, t4⟩, _⟩ := read_taken fuel s fd buf count r hr
        obtain ⟨u1, fs, u2, u3⟩ := ih r.2.2 s' t1 h
        refine ⟨u1, es ++ fs, ?_, by simp [t4, u3]⟩
        rw [u2, t3, hi]
        simp

theorem serve_uninitialized (fuel : Nat) (op : Request) (rest : List Request)
    (s s' : Console) (hi : s.initialized = false)
    (h : serve fuel s (op :: rest) = some s') :
    s'.initialized = true ∧ ∃ es, s'.calls = s.calls ++ Call.init :: es ∧ Call.init ∉ es := by
  cases op with
  | write fd buf nbytes =>
    simp only [serve] at h
    cases hw : _write fuel s fd buf nbytes with
    | none => rw [hw] at h; simp at h
    | some r =>
      rw [hw] at h
      simp only at h
      obtain ⟨t1, _, es, t3, t4⟩ := write_trace fuel s fd buf nbytes r hw
      obtain ⟨u1, fs, u2, u3⟩ := serve_initialized fuel rest r.2 s' t1 h
      refine ⟨u1, es ++ fs, ?_, by simp [t4, u3]⟩
      rw [u2, t3, hi]
      simp
  | read fd buf count =>
    simp only [serve] at h
    cases hr : _read fuel s fd buf count with
    | none => rw [hr] at h; simp at h
    | some r =>
      rw [hr] at h
      simp only at h
      obtain ⟨⟨t1, _, es, t3, t4⟩, _⟩ := read_taken fuel s fd buf count r hr
      obtain ⟨u1, fs, u2, u3⟩ := serve_initialized fuel rest r.2.2 s' t1 h
      refine ⟨u1, es ++ fs, ?_, by simp [t4, u3]⟩
      rw [u2, t3, hi]
      simp

/-- The calls a returning sequence makes to the service: `system__text_io__initialize` at
most once, exactly when the flag was clear on entry to the first call, and then first. -/
theorem serve_trace (fuel : Nat) (s : Console) (ops : List Request)
    (s' : Console) (h : serve fuel s ops = some s') :
    ∃ es, s'.calls = s.calls ++ es ∧
      es.count Call.init ≤ 1 ∧
      (es.count Call.init = 1 ↔ (s.initialized = false ∧ ops ≠ [])) ∧
      (Call.init ∈ es → es.head? = some Call.init) ∧
      (∀ j e, es[j]? = some e → e ≠ Call.init → flag_before s.initialized es j = true) ∧
      (ops ≠ [] → s'.initialized = true) := by
  cases hi : s.initialized
  · cases ops with
    | nil =>
      simp only [serve, Option.some.injEq] at h
      subst h
      exact ⟨[], by simp, by simp, by simp, by simp, by simp, by simp⟩
    | cons op rest =>
      obtain ⟨u1, es, u2, u3⟩ := serve_uninitialized fuel op rest s s' hi h
      have hc : (Call.init :: es).count Call.init = 1 := by
        rw [List.count_cons_self, List.count_eq_zero_of_not_mem u3]
      refine ⟨Call.init :: es, u2, by omega, ?_, ?_, ?_, fun _ => u1⟩
      · simp [hc]
      · intro _; rfl
      · intro j e hj hne
        cases j with
        | zero =>
          simp only [List.getElem?_cons_zero, Option.some.injEq] at hj
          exact absurd hj.symm hne
        | succ j => simp [flag_before]
  · obtain ⟨u1, es, u2, u3⟩ := serve_initialized fuel ops s s' hi h
    have hc : es.count Call.init = 0 := List.count_eq_zero_of_not_mem u3
    refine ⟨es, u2, by omega, ?_, fun hm => absurd hm u3, ?_, fun _ => u1⟩
    · simp [hc]
    · intro j e _ _
      simp [flag_before]

/-- C15. Lazy one-time initialisation.  Over every finite sequence of `_write` and `_read`
calls for which the device delivers enough input (`live`), every call returns, given
enough polls for each busy-wait; and the calls the sequence makes to the service
contain `system__text_io__initialize` at most once; they contain it exactly when the
flag was clear on entry to the first call (with one call: `_write` or `_read` calls it
exactly when the flag is clear on entry); it is then the first call made, before any
poll, query or character transfer; every other call to the service happens with the
flag set; and after a non-empty sequence the flag is set. -/
theorem initialize_at_most_once (s : Console) (ops : List Request)
    (hlive : live s.cr_lf s.rx ops) :
    ∃ fuel0 : Nat, ∀ fuel : Nat, fuel0 ≤ fuel →
      ∃ s', serve fuel s ops = some s' ∧
        ∃ es, s'.calls = s.calls ++ es ∧
          es.count Call.init ≤ 1 ∧
          (es.count Call.init = 1 ↔ (s.initialized = false ∧ ops ≠ [])) ∧
          (Call.init ∈ es → es.head? = some Call.init) ∧
          (∀ j e, es[j]? = some e → e ≠ Call.init →
            flag_before s.initialized es j = true) ∧
          (ops ≠ [] → s'.initialized = true) := by
  refine ⟨max (max (max s.tx_busy s.tx_delay) (max s.rx_busy s.rx_delay)) s.rx.length + 1,
    fun fuel hfuel => ?_⟩
  obtain ⟨s', hs'⟩ := serve_returns fuel ops s (fits_of_le s fuel hfuel) hlive
  exact ⟨s', hs', serve_trace fuel s ops s' hs'⟩

theorem initialize_at_most_once_witness :
    live true ['x', '\r', '\n', 'y']
        [Request.write 1 (buffer_of ['A']) 1, Request.read 0 (buffer_of []) 5,
         Request.write 1 (buffer_of ['B']) 1] ∧
    serve 5 ⟨false, true, 0, 0, 0, 0, ['x', '\r', '\n', 'y'], []⟩
        [Request.write 1 (buffer_of ['A']) 1, Request.read 0 (buffer_of []) 5,
         Request.write 1 (buffer_of ['B']) 1]
      = some ⟨true, true, 0, 0, 0, 0, ['y'],
          [Call.init, Call.tx_ready true, Call.put 'A',
           Call.rx_ready true, Call.get 'x', Call.rx_ready true, Call.get '\r',
           Call.cr_lf true, Call.rx_ready true, Call.get '\n',
           Call.tx_ready true, Call.put 'B']⟩ ∧
    ∃ fuel0 : Nat, ∀ fuel : Nat, fuel0 ≤ fuel →
      ∃ s', serve fuel ⟨false, true, 0, 0, 0, 0, ['x', '\r', '\n', 'y'], []⟩
          [Request.write 1 (buffer_of ['A']) 1, Request.read 0 (buffer_of []) 5,
           Request.write 1 (buffer_of ['B']) 1] = some s' ∧
        ∃ es, s'.calls = [] ++ es ∧
          es.count Call.init ≤ 1 ∧
          (es.count Call.init = 1 ↔
            (false = false ∧
              [Request.write 1 (buffer_of ['A']) 1, Request.read 0 (buffer_of []) 5,
               Request.write 1 (buffer_of ['B']) 1] ≠ [])) ∧
          (Call.init ∈ es → es.head? = some Call.init) ∧
          (∀ j e, es[j]? = some e → e ≠ Call.init → flag_before false es j = true) ∧
          ([Request.write 1 (buffer_of ['A']) 1, Request.read 0 (buffer_of []) 5,
            Request.write 1 (buffer_of ['B']) 1] ≠ [] → s'.initialized = true) :=
  ⟨⟨Or.inl (by decide), trivial⟩, by decide,
   initialize_at_most_once ⟨false, true, 0, 0, 0, 0, ['x', '\r', '\n', 'y'], []⟩
     [Request.write 1 (buffer_of ['A']) 1, Request.read 0 (buffer_of []) 5,
      Request.write 1 (buffer_of ['B']) 1]
     ⟨Or.inl (by decide), trivial⟩⟩

/-- On a service that is already initialised, a `_read` of one character makes a poll and
a `get` and no call of `system__text_io__initialize`; on a fresh service the same call
starts with it. -/
theorem initialize_example :
    (_read 2 ⟨true, false, 0, 0, 0, 0, ['x'], []⟩ 0 (buffer_of []) 1).map
        (fun r => r.2.2.calls) = some [Call.rx_ready true, Call.get 'x'] ∧
    (_read 2 ⟨false, false, 0, 0, 0, 0, ['x'], []⟩ 0 (buffer_of []) 1).map
        (fun r => r.2.2.calls) = some [Call.init, Call.rx_ready true, Call.get 'x'] := by
  decide

/-- A sequence that is not `live`: a `_read` that asks for two characters of a device
that delivers one has not returned after 50 polls of each busy-wait. -/
theorem initialize_blocked_example :
    ¬ live false ['x'] [Request.read 0 (buffer_of []) 2] ∧
    serve 50 ⟨false, false, 0, 0, 0, 0, ['x'], []⟩ [Request.read 0 (buffer_of []) 2] = none := by
  refine ⟨fun h => ?_, by decide⟩
  have h1 := h.1
  revert h1
  decide

end NewlibBB
